import Mathlib

/-
Verification of the urscan binary signature scanner
(src/include/ur/signature.hpp), shallowly embedded in Lean 4.

Machine memory is modelled as a list of byte values (Nat, < 256 in
practice); addresses are offsets into that list, so "lowest address"
becomes "least offset".  The serial, non-SIMD build of the scanner is
the default configuration of the source (both optimisation macros are
commented out); the multithreaded chunking driver is modelled as its
deterministic result skeleton (chunk decomposition plus minimum
combination), since thread scheduling itself is not shallowly
embeddable.
-/

set_option maxHeartbeats 1000000

namespace Urscan

/-- A pattern cell, mirroring `ur::pattern_byte`: a byte value and a
wildcard flag.  The parser stores 0 in the value of wildcard cells. -/
structure PatternByte where
  value : Nat
  is_wildcard : Bool
deriving DecidableEq, Repr, Inhabited

/-- The five scan strategies of `ur::detail::scan_strategy`. -/
inductive ScanStrategy where
  | simple
  | forward_anchor
  | backward_anchor
  | dual_anchor
  | dynamic_anchor
deriving DecidableEq, Repr

/-- The compiled state of a `runtime_signature`: the cell sequence plus
the auxiliary data filled in by `analyze_pattern`. -/
structure SigState where
  pattern : List PatternByte
  strategy : ScanStrategy
  first_byte : Nat
  last_byte : Nat
  simple_pattern : List Nat
  horspool_table : Nat → Nat

/-! ### First-match search combinator

`firstFrom pred k p` returns the least `t` in `[p, p + k)` with
`pred t = true`.  All kernels are proved equal to an instance of it. -/

def firstFrom (pred : Nat → Bool) : Nat → Nat → Option Nat
  | 0, _ => none
  | k + 1, p => if pred p then some p else firstFrom pred k (p + 1)

theorem firstFrom_eq_none {pred : Nat → Bool} {k : Nat} :
    ∀ {p : Nat}, firstFrom pred k p = none ↔
      ∀ t, p ≤ t → t < p + k → pred t = false := by
  induction k with
  | zero =>
    intro p
    simp only [firstFrom, true_iff]
    intro t h1 h2
    omega
  | succ k ih =>
    intro p
    simp only [firstFrom]
    by_cases h : pred p = true
    · simp only [if_pos h]
      constructor
      · intro hc; cases hc
      · intro hall
        have := hall p (le_refl p) (by omega)
        rw [h] at this
        cases this
    · rw [if_neg (by simp [h])]
      rw [ih]
      constructor
      · intro hall t hpt htk
        rcases Nat.eq_or_lt_of_le hpt with heq | hlt
        · subst heq
          exact Bool.eq_false_iff.mpr h
        · exact hall t hlt (by omega)
      · intro hall t hpt htk
        exact hall t (by omega) (by omega)

theorem firstFrom_eq_some {pred : Nat → Bool} {k : Nat} :
    ∀ {p s : Nat}, firstFrom pred k p = some s ↔
      (p ≤ s ∧ s < p + k ∧ pred s = true ∧
       ∀ t, p ≤ t → t < s → pred t = false) := by
  induction k with
  | succ k ih =>
    intro p s
    simp only [firstFrom]
    by_cases h : pred p = true
    · simp only [if_pos h, Option.some.injEq]
      constructor
      · rintro rfl
        exact ⟨le_refl _, by omega, h, fun t h1 h2 => by omega⟩
      · rintro ⟨h1, _, _, h4⟩
        rcases Nat.eq_or_lt_of_le h1 with heq | hlt
        · omega
        · exact absurd h (by simp [h4 p (le_refl p) hlt])
    · rw [if_neg (by simp [h])]
      rw [ih]
      constructor
      · rintro ⟨h1, h2, h3, h4⟩
        refine ⟨by omega, by omega, h3, ?_⟩
        intro t hpt hts
        rcases Nat.eq_or_lt_of_le hpt with heq | hlt
        · subst heq
          exact Bool.eq_false_iff.mpr h
        · exact h4 t hlt hts
      · rintro ⟨h1, h2, h3, h4⟩
        have hps : p ≠ s := by
          rintro rfl; exact h h3
        refine ⟨by omega, by omega, h3, ?_⟩
        intro t hpt hts
        exact h4 t (by omega) hts
  | zero =>
    intro p s
    simp only [firstFrom]
    constructor
    · intro hc
      simp at hc
    · rintro ⟨h1, h2, h3, h4⟩
      omega

theorem firstFrom_congr {pred pred2 : Nat → Bool} {k p : Nat}
    (h : ∀ t, p ≤ t → t < p + k → pred t = pred2 t) :
    firstFrom pred k p = firstFrom pred2 k p := by
  induction k generalizing p with
  | zero => simp [firstFrom]
  | succ k ih =>
    simp only [firstFrom]
    rw [h p (le_refl p) (by omega)]
    by_cases hp : pred2 p = true
    · simp [hp]
    · rw [if_neg (by simp [hp]), if_neg (by simp [hp])]
      exact ih fun t h1 h2 => h t (by omega) (by omega)

theorem firstFrom_add {pred : Nat → Bool} :
    ∀ {a b p : Nat}, firstFrom pred (a + b) p =
      (firstFrom pred a p).elim (firstFrom pred b (p + a)) some := by
  intro a
  induction a with
  | zero => intro b p; simp [firstFrom]
  | succ a ih =>
    intro b p
    have : a + 1 + b = (a + b) + 1 := by omega
    rw [this]
    simp only [firstFrom]
    by_cases h : pred p = true
    · simp [h]
    · rw [if_neg (by simp [h]), if_neg (by simp [h])]
      rw [ih]
      have : p + (a + 1) = p + 1 + a := by omega
      rw [this]

/-- Extending the search region past positions where the predicate is
false, and replacing the predicate pointwise on the common part,
preserves the result. -/
theorem firstFrom_ext {pred pred2 : Nat → Bool} {k1 k2 p : Nat}
    (hk : k1 ≤ k2)
    (hfalse : ∀ t, p + k1 ≤ t → t < p + k2 → pred t = false)
    (hsame : ∀ t, p ≤ t → t < p + k1 → pred t = pred2 t) :
    firstFrom pred k2 p = firstFrom pred2 k1 p := by
  have hsplit : k2 = k1 + (k2 - k1) := by omega
  rw [hsplit, firstFrom_add]
  have htail : firstFrom pred (k2 - k1) (p + k1) = none := by
    rw [firstFrom_eq_none]
    intro t h1 h2
    exact hfalse t h1 (by omega)
  rw [firstFrom_congr hsame]
  cases h : firstFrom pred2 k1 p <;> simp [h, htail]

/-- If every position in `[p, q)` fails the predicate, searching may
start at `q` instead of `p`. -/
theorem firstFrom_skip {pred : Nat → Bool} {k p q : Nat}
    (hpq : p ≤ q)
    (hfalse : ∀ t, p ≤ t → t < q → pred t = false) :
    firstFrom pred k p = firstFrom pred (k - (q - p)) q := by
  by_cases hqk : q - p ≤ k
  · have hsplit : k = (q - p) + (k - (q - p)) := by omega
    rw [hsplit, firstFrom_add]
    have hhead : firstFrom pred (q - p) p = none := by
      rw [firstFrom_eq_none]
      intro t h1 h2
      exact hfalse t h1 (by omega)
    rw [hhead]
    have : p + (q - p) = q := by omega
    rw [Option.elim, this]
    congr 1
    omega
  · have h1 : firstFrom pred k p = none := by
      rw [firstFrom_eq_none]
      intro t ht1 ht2
      exact hfalse t ht1 (by omega)
    have h2 : k - (q - p) = 0 := by omega
    rw [h1, h2]
    simp [firstFrom]

/-! ### Pattern parser

Translation of the `runtime_signature(std::string_view)` constructor.
A thrown `std::invalid_argument` (the `InvalidSyntax` failure) becomes
`none`. -/

/-- `isxdigit`: the character is a hexadecimal digit. -/
def isHexDigit (c : Char) : Bool :=
  (decide ('0' ≤ c) && decide (c ≤ '9')) ||
  (decide ('a' ≤ c) && decide (c ≤ 'f')) ||
  (decide ('A' ≤ c) && decide (c ≤ 'F'))

/-- `hex_to_val`: numeric value of a hexadecimal digit (0 on other
characters; the source throws there, but it is only called on
characters that passed `isxdigit`). -/
def hex_to_val (c : Char) : Nat :=
  if '0' ≤ c ∧ c ≤ '9' then c.toNat - '0'.toNat
  else if 'a' ≤ c ∧ c ≤ 'f' then c.toNat - 'a'.toNat + 10
  else if 'A' ≤ c ∧ c ≤ 'F' then c.toNat - 'A'.toNat + 10
  else 0

/-- The constructor's character loop: spaces are skipped; `?` emits one
wildcard cell and consumes an optional second `?`; a hex digit must be
followed by a second hex digit, the pair emitting one solid cell; any
other character is `InvalidSyntax` (`none`). -/
def parse : List Char → Option (List PatternByte)
  | [] => some []
  | ' ' :: r => parse r
  | '?' :: '?' :: r => (parse r).map (fun cells => ⟨0, true⟩ :: cells)
  | '?' :: r => (parse r).map (fun cells => ⟨0, true⟩ :: cells)
  | a :: b :: r =>
    if isHexDigit a ∧ isHexDigit b then
      (parse r).map (fun cells => ⟨hex_to_val a * 16 + hex_to_val b, false⟩ :: cells)
    else none
  | _ => none

/-- Modelled from the spec: the pattern grammar of §6 with the
whitespace between tokens made optional — the input is any
concatenation of single spaces, wildcard tokens (`?` or `??`) and
two-digit hex tokens. -/
inductive GramRelaxed : List Char → Prop where
  | nil : GramRelaxed []
  | ws {r : List Char} : GramRelaxed r → GramRelaxed (' ' :: r)
  | wild1 {r : List Char} : GramRelaxed r → GramRelaxed ('?' :: r)
  | wild2 {r : List Char} : GramRelaxed r → GramRelaxed ('?' :: '?' :: r)
  | hexpair {a b : Char} {r : List Char} : isHexDigit a = true →
      isHexDigit b = true → GramRelaxed r → GramRelaxed (a :: b :: r)

/-- Modelled from the spec: the strict pattern grammar of §6
(`pattern = { WS }, [ token, { WS+, token } ], { WS }`): every maximal
space-free run of the input must be one single token. -/
def isToken (w : List Char) : Bool :=
  w = ['?'] || w = ['?', '?'] ||
  (match w with
   | [a, b] => isHexDigit a && isHexDigit b
   | _ => false)

/-- Modelled from the spec: space-separated word decomposition used to
state the strict grammar. -/
def spaceWords (cur : List Char) : List Char → List (List Char)
  | [] => if cur = [] then [] else [cur.reverse]
  | c :: r =>
    if c = ' ' then
      if cur = [] then spaceWords [] r else cur.reverse :: spaceWords [] r
    else spaceWords (c :: cur) r

/-- Modelled from the spec: membership in the strict grammar — every
space-delimited word is exactly one token. -/
def gramStrict (s : List Char) : Bool :=
  (spaceWords [] s).all isToken

theorem hexDigit_ne_qmark {c : Char} (h : isHexDigit c = true) : c ≠ '?' := by
  intro hc
  subst hc
  simp [isHexDigit] at h

theorem hexDigit_ne_space {c : Char} (h : isHexDigit c = true) : c ≠ ' ' := by
  intro hc
  subst hc
  simp [isHexDigit] at h

/-- Inverting a relaxed-grammar derivation that starts with `?`. -/
theorem gramRelaxed_of_qmark {r : List Char} (h : GramRelaxed ('?' :: r)) :
    GramRelaxed r := by
  cases h with
  | wild1 h => exact h
  | wild2 h => exact GramRelaxed.wild1 h
  | hexpair ha hb h => exact absurd rfl (hexDigit_ne_qmark ha)

theorem parse_nil : parse [] = some [] := rfl

theorem parse_cons_space (r : List Char) : parse (' ' :: r) = parse r := by
  cases r <;> rfl

theorem parse_qq (r : List Char) :
    parse ('?' :: '?' :: r) =
      (parse r).map (fun cells => ⟨0, true⟩ :: cells) := by
  cases r <;> rfl

theorem parse_q1 : parse ['?'] = some [⟨0, true⟩] := rfl

theorem parse_q_cons {c : Char} {r : List Char} (hc : c ≠ '?') :
    parse ('?' :: c :: r) =
      (parse (c :: r)).map (fun cells => ⟨0, true⟩ :: cells) := by
  simp [parse, hc]

theorem parse_hex_cons {a b : Char} {r : List Char} (hsp : a ≠ ' ')
    (hq : a ≠ '?') :
    parse (a :: b :: r) =
      if isHexDigit a ∧ isHexDigit b then
        (parse r).map
          (fun cells => ⟨hex_to_val a * 16 + hex_to_val b, false⟩ :: cells)
      else none := by
  simp [parse, hsp, hq]

theorem parse_single {a : Char} (hsp : a ≠ ' ') (hq : a ≠ '?') :
    parse [a] = none := by
  simp [parse, hsp, hq]

/-- Soundness half: whatever `parse` accepts is generated by the
relaxed grammar. -/
theorem gramRelaxed_of_parse_isSome :
    ∀ s : List Char, (parse s).isSome = true → GramRelaxed s := by
  have H : ∀ n : Nat, ∀ s : List Char, s.length ≤ n →
      (parse s).isSome = true → GramRelaxed s := by
    intro n
    induction n with
    | zero =>
      intro s hlen hp
      cases s with
      | nil => exact GramRelaxed.nil
      | cons c r => simp at hlen
    | succ n ih =>
      intro s hlen hp
      cases s with
      | nil => exact GramRelaxed.nil
      | cons c r =>
        by_cases hc : c = ' '
        · subst hc
          rw [parse_cons_space] at hp
          exact GramRelaxed.ws (ih r (by simp at hlen; omega) hp)
        · by_cases hq : c = '?'
          · subst hq
            cases r with
            | nil => exact GramRelaxed.wild1 GramRelaxed.nil
            | cons b r2 =>
              by_cases hb : b = '?'
              · subst hb
                rw [parse_qq, Option.isSome_map'] at hp
                exact GramRelaxed.wild2 (ih r2 (by simp at hlen ⊢; omega) hp)
              · rw [parse_q_cons hb, Option.isSome_map'] at hp
                exact GramRelaxed.wild1 (ih (b :: r2) (by simp at hlen ⊢; omega) hp)
          · cases r with
            | nil =>
              rw [parse_single hc hq] at hp
              simp at hp
            | cons b r2 =>
              rw [parse_hex_cons hc hq] at hp
              by_cases hhex : isHexDigit c = true ∧ isHexDigit b = true
              · rw [if_pos hhex, Option.isSome_map'] at hp
                exact GramRelaxed.hexpair hhex.1 hhex.2
                  (ih r2 (by simp at hlen ⊢; omega) hp)
              · rw [if_neg hhex] at hp
                simp at hp
  exact fun s => H s.length s (le_refl _)

/-- Completeness half: every string of the relaxed grammar parses. -/
theorem parse_isSome_of_gramRelaxed :
    ∀ s : List Char, GramRelaxed s → (parse s).isSome = true := by
  have H : ∀ n : Nat, ∀ s : List Char, s.length ≤ n → GramRelaxed s →
      (parse s).isSome = true := by
    intro n
    induction n with
    | zero =>
      intro s hlen hg
      cases s with
      | nil => simp [parse]
      | cons c r => simp at hlen
    | succ n ih =>
      intro s hlen hg
      cases hg with
      | nil => simp [parse]
      | ws hr =>
        rw [parse_cons_space]
        exact ih _ (by simp at hlen; omega) hr
      | wild1 hr =>
        rename_i r
        cases r with
        | nil => rw [parse_q1]; rfl
        | cons b r2 =>
          by_cases hb : b = '?'
          · subst hb
            rw [parse_qq, Option.isSome_map']
            exact ih r2 (by simp at hlen ⊢; omega) (gramRelaxed_of_qmark hr)
          · rw [parse_q_cons hb, Option.isSome_map']
            exact ih (b :: r2) (by simp at hlen ⊢; omega) hr
      | wild2 hr =>
        rw [parse_qq, Option.isSome_map']
        exact ih _ (by simp at hlen ⊢; omega) hr
      | hexpair ha hb hr =>
        rw [parse_hex_cons (hexDigit_ne_space ha) (hexDigit_ne_qmark ha),
          if_pos ⟨ha, hb⟩, Option.isSome_map']
        exact ih _ (by simp at hlen ⊢; omega) hr
  exact fun s => H s.length s (le_refl _)



/-! ### Strategy analysis -/

/-- BMH table pre-calculation of `analyze_pattern`: fill all slots with
`n`, then for `i` in `[0, n-2]` set `table[pattern[i]] := n - 1 - i`
(later writes override earlier ones). -/
def horspool_build (vals : List Nat) : Nat → Nat :=
  (List.range (vals.length - 1)).foldl
    (fun t i => Function.update t (vals.getD i 0) (vals.length - 1 - i))
    (fun _ => vals.length)

/-- `analyze_pattern`: classify the pattern and fill the auxiliary
state.  The untouched fields keep their zero initialisers, exactly as
in the source (`std::byte first_byte_{}, last_byte_{}` and the
zero-initialised `horspool_table_`). -/
def analyze_pattern (pat : List PatternByte) : SigState :=
  if pat = [] then
    ⟨pat, ScanStrategy.simple, 0, 0, [], fun _ => 0⟩
  else if pat.any (fun c => c.is_wildcard) = false then
    ⟨pat, ScanStrategy.simple, 0, 0, pat.map (fun c => c.value),
      horspool_build (pat.map (fun c => c.value))⟩
  else if (pat.getD 0 default).is_wildcard = false ∧
          (pat.getD (pat.length - 1) default).is_wildcard = false then
    ⟨pat, ScanStrategy.dual_anchor, (pat.getD 0 default).value,
      (pat.getD (pat.length - 1) default).value, [], fun _ => 0⟩
  else if (pat.getD 0 default).is_wildcard = false then
    ⟨pat, ScanStrategy.forward_anchor, (pat.getD 0 default).value, 0, [],
      fun _ => 0⟩
  else if (pat.getD (pat.length - 1) default).is_wildcard = false then
    ⟨pat, ScanStrategy.backward_anchor, 0,
      (pat.getD (pat.length - 1) default).value, [], fun _ => 0⟩
  else
    ⟨pat, ScanStrategy.dynamic_anchor, 0, 0, [], fun _ => 0⟩

/-- Modelled from the spec: the classification table of §4.2 / claim C3,
written exactly as the table reads. -/
def spec_strategy (pat : List PatternByte) : ScanStrategy :=
  if pat.length = 0 then ScanStrategy.simple
  else if ∀ i, i < pat.length → (pat.getD i default).is_wildcard = false then
    ScanStrategy.simple
  else if (pat.getD 0 default).is_wildcard = false ∧
          (pat.getD (pat.length - 1) default).is_wildcard = false then
    ScanStrategy.dual_anchor
  else if (pat.getD 0 default).is_wildcard = false then
    ScanStrategy.forward_anchor
  else if (pat.getD 0 default).is_wildcard = true ∧
          (pat.getD (pat.length - 1) default).is_wildcard = false then
    ScanStrategy.backward_anchor
  else ScanStrategy.dynamic_anchor

/-! ### Match checks -/

/-- `full_match_at`: the wildcard-aware whole-pattern check.  The first
branch is the `memcmp` fast path taken when the strategy is
`dual_anchor` and `simple_pattern_` is non-empty (dead for analyzed
states, since `dual_anchor` implies wildcards and hence an empty
`simple_pattern_`, but kept for faithfulness).  The 4-way manual
unrolling of the source loop checks exactly the same cells in the same
order and is modelled by the plain iteration. -/
def full_match_at (st : SigState) (mem : List Nat) (s : Nat) : Bool :=
  if st.strategy = ScanStrategy.dual_anchor ∧ st.simple_pattern ≠ [] then
    (List.range st.simple_pattern.length).all
      (fun j => mem.getD (s + j) 0 == st.simple_pattern.getD j 0)
  else
    (List.range st.pattern.length).all
      (fun i => (st.pattern.getD i default).is_wildcard ||
        (mem.getD (s + i) 0 == (st.pattern.getD i default).value))

/-- Modelled from the spec: "match at address a" (§4.3) — for every
pattern cell `i`, either the cell is a wildcard or
`M[a - base + i] == cell[i].value`. -/
def spec_match_at (pat : List PatternByte) (mem : List Nat) (s : Nat) : Bool :=
  (List.range pat.length).all
    (fun i => (pat.getD i default).is_wildcard ||
      (mem.getD (s + i) 0 == (pat.getD i default).value))

/-- Modelled from the spec: the scan contract — the least offset `s`
with `s + n ≤ |M|` at which the pattern matches, else `none`. -/
def spec_scan (pat : List PatternByte) (mem : List Nat) : Option Nat :=
  firstFrom (spec_match_at pat mem) (mem.length + 1 - pat.length) 0

/-- Byte-wise equality of `vals` with `mem[i, i + |vals|)`
(`memcmp(location, vals.data(), vals.size()) == 0`). -/
def exactAt (vals : List Nat) (mem : List Nat) (i : Nat) : Bool :=
  (List.range vals.length).all (fun j => mem.getD (i + j) 0 == vals.getD j 0)

/-! ### Scan kernels (serial, portable build) -/

/-- The `memcmp(pattern_data, scan_data + i, last_pattern_idx)` check
of `scan_simple`: the first `n - 1` window bytes equal the first
`n - 1` pattern bytes. -/
def bmh_prefix_ok (vals mem : List Nat) (i : Nat) : Bool :=
  (List.range (vals.length - 1)).all
    (fun j => mem.getD (i + j) 0 == vals.getD j 0)

/-- The Boyer-Moore-Horspool loop of `scan_simple`
(`while (i <= scan_len - pattern_len) { ... i += table[...]; }`),
expressed with explicit fuel; `mem.length + 1` steps always suffice
because every table entry produced by the analyzer is at least 1. -/
def bmh_loop (tbl : Nat → Nat) (vals : List Nat) (mem : List Nat) :
    Nat → Nat → Option Nat
  | 0, _ => none
  | fuel + 1, i =>
    if i + vals.length ≤ mem.length then
      if mem.getD (i + (vals.length - 1)) 0 = vals.getD (vals.length - 1) 0 ∧
         (vals.length = 1 ∨ bmh_prefix_ok vals mem i = true) then some i
      else bmh_loop tbl vals mem fuel (i + tbl (mem.getD (i + (vals.length - 1)) 0))
    else none

/-- `scan_simple` (serial path, `found_flag == nullptr`). -/
def scan_simple (st : SigState) (mem : List Nat) : Option Nat :=
  if mem.length < st.simple_pattern.length ∨ st.simple_pattern = [] then none
  else bmh_loop st.horspool_table st.simple_pattern mem (mem.length + 1) 0

/-- The shared shape of the four anchor kernels: a `memchr` loop over
positions `q`, trying candidate start `q - off` at every occurrence of
the anchor byte `ab`.  With `brk = true` (forward/dual kernels,
`off = 0`) an anchor occurrence with fewer than `n` bytes remaining
stops the loop (`break`); otherwise out-of-bounds candidates are
skipped (`continue`). -/
def anchor_loop (ab off n : Nat) (brk : Bool) (check : Nat → Bool)
    (mem : List Nat) : Nat → Nat → Option Nat
  | 0, _ => none
  | fuel + 1, q =>
    if mem.getD q 0 = ab then
      if brk = true ∧ mem.length - q < n then none
      else if off ≤ q ∧ q - off + n ≤ mem.length ∧ check (q - off) = true then
        some (q - off)
      else anchor_loop ab off n brk check mem fuel (q + 1)
    else anchor_loop ab off n brk check mem fuel (q + 1)

/-- `scan_forward_anchor` (serial path). -/
def scan_forward_anchor (st : SigState) (mem : List Nat) : Option Nat :=
  if mem.length < st.pattern.length then none
  else anchor_loop st.first_byte 0 st.pattern.length true
    (full_match_at st mem) mem mem.length 0

/-- `scan_backward_anchor` (serial path): candidates are
`p - (n - 1)` for occurrences `p` of the last byte. -/
def scan_backward_anchor (st : SigState) (mem : List Nat) : Option Nat :=
  if mem.length < st.pattern.length then none
  else anchor_loop st.last_byte (st.pattern.length - 1) st.pattern.length false
    (full_match_at st mem) mem mem.length 0

/-- `scan_dual_anchor` (serial path): forward anchor plus a last-byte
short-circuit before the full match. -/
def scan_dual_anchor (st : SigState) (mem : List Nat) : Option Nat :=
  if mem.length < st.pattern.length then none
  else anchor_loop st.first_byte 0 st.pattern.length true
    (fun s => (mem.getD (s + (st.pattern.length - 1)) 0 == st.last_byte) &&
      full_match_at st mem s) mem mem.length 0

/-- The first-solid-cell search of `scan_dynamic_anchor`: index of the
first non-wildcard cell, or `none`. -/
def solid_index : List PatternByte → Option Nat
  | [] => none
  | c :: r => if c.is_wildcard then (solid_index r).map (fun i => i + 1) else some 0

/-- `first_solid_offset` stays 0 when no solid cell exists (the source
loop never assigns it). -/
def first_solid_offset (pat : List PatternByte) : Nat :=
  (solid_index pat).getD 0

/-- `scan_dynamic_anchor` (portable variant, serial path): anchor on
the first solid cell's value — note the source reads
`pattern_[first_solid_offset].value` even when that cell is a
wildcard (all-wildcard pattern), where the stored value is 0. -/
def scan_dynamic_anchor (st : SigState) (mem : List Nat) : Option Nat :=
  if mem.length < st.pattern.length then none
  else anchor_loop ((st.pattern.getD (first_solid_offset st.pattern) default).value)
    (first_solid_offset st.pattern) st.pattern.length false
    (full_match_at st mem) mem mem.length 0

/-- The strategy dispatch switch of `runtime_signature::scan`. -/
def kernel_of (k : ScanStrategy) : SigState → List Nat → Option Nat :=
  match k with
  | ScanStrategy.simple => scan_simple
  | ScanStrategy.forward_anchor => scan_forward_anchor
  | ScanStrategy.backward_anchor => scan_backward_anchor
  | ScanStrategy.dual_anchor => scan_dual_anchor
  | ScanStrategy.dynamic_anchor => scan_dynamic_anchor

/-- `runtime_signature::scan(span)` in the serial build: empty patterns
yield `none`, otherwise the strategy's kernel runs on the range. -/
def scan (pat : List PatternByte) (mem : List Nat) : Option Nat :=
  if pat = [] then none
  else kernel_of (analyze_pattern pat).strategy (analyze_pattern pat) mem

/-! ### Horspool table characterisation -/

/-- Reference evaluation of the skip table: the value of the reference
construction "init all slots to `n`; for `i` in `[0, k)` set
`table[vals[i]] := n - 1 - i`" at byte `b` (later writes override). -/
def tblAux (vals : List Nat) : Nat → Nat → Nat
  | 0, _ => vals.length
  | k + 1, b =>
    if vals.getD k 0 = b then vals.length - 1 - k else tblAux vals k b

theorem horspool_foldl_eq_tblAux (vals : List Nat) :
    ∀ k b, ((List.range k).foldl
      (fun t i => Function.update t (vals.getD i 0) (vals.length - 1 - i))
      (fun _ => vals.length)) b = tblAux vals k b := by
  intro k
  induction k with
  | zero => intro b; simp [tblAux]
  | succ k ih =>
    intro b
    rw [List.range_succ, List.foldl_append]
    simp only [List.foldl_cons, List.foldl_nil, tblAux]
    rw [Function.update_apply]
    by_cases h : vals.getD k 0 = b
    · rw [if_pos h.symm, if_pos h]
    · rw [if_neg (fun hb => h hb.symm), if_neg h]
      exact ih b

theorem horspool_build_eq_tblAux (vals : List Nat) (b : Nat) :
    horspool_build vals b = tblAux vals (vals.length - 1) b :=
  horspool_foldl_eq_tblAux vals (vals.length - 1) b

theorem tblAux_le (vals : List Nat) :
    ∀ k b, tblAux vals k b ≤ vals.length := by
  intro k
  induction k with
  | zero => intro b; simp [tblAux]
  | succ k ih =>
    intro b
    rw [tblAux]
    by_cases h : vals.getD k 0 = b
    · rw [if_pos h]; omega
    · rw [if_neg h]; exact ih b

theorem tblAux_pos (vals : List Nat) (hlen : 1 ≤ vals.length) :
    ∀ k, k ≤ vals.length - 1 → ∀ b, 1 ≤ tblAux vals k b := by
  intro k
  induction k with
  | zero => intro _ b; simpa [tblAux] using hlen
  | succ k ih =>
    intro hk b
    rw [tblAux]
    by_cases h : vals.getD k 0 = b
    · rw [if_pos h]; omega
    · rw [if_neg h]; exact ih (by omega) b

theorem tblAux_skip (vals : List Nat) :
    ∀ k b d, 1 ≤ d → d < tblAux vals k b → vals.length - 1 - d < k →
      vals.getD (vals.length - 1 - d) 0 ≠ b := by
  intro k
  induction k with
  | zero =>
    intro b d h1 h2 h3
    omega
  | succ k ih =>
    intro b d h1 h2 h3
    rw [tblAux] at h2
    by_cases h : vals.getD k 0 = b
    · rw [if_pos h] at h2
      omega
    · rw [if_neg h] at h2
      by_cases hdk : vals.length - 1 - d = k
      · rw [hdk]; exact h
      · exact ih b d h1 h2 (by omega)

theorem horspool_build_pos (vals : List Nat) (hlen : 1 ≤ vals.length)
    (b : Nat) : 1 ≤ horspool_build vals b := by
  rw [horspool_build_eq_tblAux]
  exact tblAux_pos vals hlen _ (le_refl _) b

theorem horspool_build_le (vals : List Nat) (b : Nat) :
    horspool_build vals b ≤ vals.length := by
  rw [horspool_build_eq_tblAux]
  exact tblAux_le vals _ b

theorem horspool_build_skip (vals : List Nat) (b d : Nat) (h1 : 1 ≤ d)
    (h2 : d < horspool_build vals b) :
    vals.getD (vals.length - 1 - d) 0 ≠ b := by
  rw [horspool_build_eq_tblAux] at h2
  have hd : vals.length - 1 - d < vals.length - 1 ∨ vals.length ≤ 1 := by
    omega
  rcases hd with hd | hd
  · exact tblAux_skip vals _ b d h1 h2 hd
  · have := tblAux_le vals (vals.length - 1) b
    omega

/-! ### Pointwise characterisations of the match checks -/

theorem exactAt_eq_true_iff {vals mem : List Nat} {i : Nat} :
    exactAt vals mem i = true ↔
      ∀ j, j < vals.length → mem.getD (i + j) 0 = vals.getD j 0 := by
  simp [exactAt, List.all_eq_true]

theorem spec_match_at_eq_true_iff {pat : List PatternByte} {mem : List Nat}
    {s : Nat} :
    spec_match_at pat mem s = true ↔
      ∀ i, i < pat.length → (pat.getD i default).is_wildcard = true ∨
        mem.getD (s + i) 0 = (pat.getD i default).value := by
  simp [spec_match_at, List.all_eq_true]

theorem full_match_at_generic {st : SigState} {mem : List Nat} {s : Nat}
    (h : ¬(st.strategy = ScanStrategy.dual_anchor ∧ st.simple_pattern ≠ [])) :
    full_match_at st mem s = spec_match_at st.pattern mem s := by
  rw [full_match_at, if_neg h]
  rfl

/-! ### BMH loop normal form -/

theorem bmh_prefix_eq_true_iff {vals mem : List Nat} {i : Nat} :
    bmh_prefix_ok vals mem i = true ↔
    ∀ j, j < vals.length - 1 → mem.getD (i + j) 0 = vals.getD j 0 := by
  simp [bmh_prefix_ok, List.all_eq_true]

theorem bmh_cond_iff {vals mem : List Nat} {i : Nat} (hne : vals ≠ []) :
    (mem.getD (i + (vals.length - 1)) 0 = vals.getD (vals.length - 1) 0 ∧
      (vals.length = 1 ∨ bmh_prefix_ok vals mem i = true)) ↔
    exactAt vals mem i = true := by
  have hlen : 1 ≤ vals.length := List.length_pos.mpr hne
  constructor
  · rintro ⟨h1, h2 | h2⟩
    · rw [exactAt_eq_true_iff]
      intro j hj
      have hj0 : j = 0 := by omega
      subst hj0
      simpa [h2] using h1
    · rw [exactAt_eq_true_iff]
      intro j hj
      by_cases hjl : j < vals.length - 1
      · exact bmh_prefix_eq_true_iff.mp h2 j hjl
      · have hj1 : j = vals.length - 1 := by omega
        subst hj1
        exact h1
  · intro h
    have hall := exactAt_eq_true_iff.mp h
    refine ⟨hall (vals.length - 1) (by omega), Or.inr ?_⟩
    rw [bmh_prefix_eq_true_iff]
    intro j hj
    exact hall j (by omega)

theorem bmh_loop_eq_firstFrom {tbl : Nat → Nat} {vals mem : List Nat}
    (hne : vals ≠ [])
    (hpos : ∀ b, 1 ≤ tbl b) (hle : ∀ b, tbl b ≤ vals.length)
    (hskip : ∀ b d, 1 ≤ d → d < tbl b →
      vals.getD (vals.length - 1 - d) 0 ≠ b) :
    ∀ fuel i, mem.length + 1 ≤ fuel + i →
      bmh_loop tbl vals mem fuel i =
        firstFrom (exactAt vals mem) (mem.length + 1 - vals.length - i) i := by
  have hlen : 1 ≤ vals.length := List.length_pos.mpr hne
  intro fuel
  induction fuel with
  | zero =>
    intro i hfi
    rw [bmh_loop]
    have hz : mem.length + 1 - vals.length - i = 0 := by omega
    rw [hz]
    rfl
  | succ fuel ih =>
    intro i hfi
    rw [bmh_loop]
    by_cases hin : i + vals.length ≤ mem.length
    · by_cases hc : mem.getD (i + (vals.length - 1)) 0 =
          vals.getD (vals.length - 1) 0 ∧
          (vals.length = 1 ∨ bmh_prefix_ok vals mem i = true)
      · rw [if_pos hin, if_pos hc]
        have hex : exactAt vals mem i = true := (bmh_cond_iff hne).mp hc
        symm
        rw [firstFrom_eq_some]
        exact ⟨le_refl i, by omega, hex, fun t h1 h2 => by omega⟩
      · rw [if_pos hin, if_neg hc]
        have hex : exactAt vals mem i = false := by
          rcases Bool.eq_false_or_eq_true (exactAt vals mem i) with h | h
          · exact absurd ((bmh_cond_iff hne).mpr h) hc
          · exact h
        set b := mem.getD (i + (vals.length - 1)) 0 with hb
        have hstep : mem.length + 1 ≤ fuel + (i + tbl b) := by
          have := hpos b
          omega
        rw [ih (i + tbl b) hstep]
        have hnomatch : ∀ t, i ≤ t → t < i + tbl b →
            exactAt vals mem t = false := by
          intro t ht1 ht2
          rcases Nat.eq_or_lt_of_le ht1 with rfl | hlt
          · exact hex
          · rcases Bool.eq_false_or_eq_true (exactAt vals mem t) with h | h
            swap
            · exact h
            · exfalso
              set d := t - i with hd
              have hd1 : 1 ≤ d := by omega
              have hd2 : d < tbl b := by omega
              have hdn : d ≤ vals.length - 1 := by
                have := hle b
                omega
              have hall := exactAt_eq_true_iff.mp h
              have hv := hall (vals.length - 1 - d) (by omega)
              have hidx : t + (vals.length - 1 - d) = i + (vals.length - 1) := by
                omega
              rw [hidx] at hv
              exact hskip b d hd1 hd2 hv.symm
        rw [firstFrom_skip (by have := hpos b; omega) hnomatch]
        congr 1
        omega
    · rw [if_neg hin]
      have hz : mem.length + 1 - vals.length - i = 0 := by omega
      rw [hz]
      rfl

/-! ### Anchor loop normal forms -/

theorem beq_nat_true_of_eq {a b : Nat} (h : a = b) : (a == b) = true := by
  simp [h]

theorem beq_nat_false_of_ne {a b : Nat} (h : a ≠ b) : (a == b) = false := by
  simp [h]

theorem firstFrom_succ_pos {pred : Nat → Bool} {k p : Nat}
    (h : pred p = true) : firstFrom pred (k + 1) p = some p := by
  rw [firstFrom, if_pos h]

theorem firstFrom_succ_neg {pred : Nat → Bool} {k p : Nat}
    (h : pred p = false) : firstFrom pred (k + 1) p = firstFrom pred k (p + 1) := by
  rw [firstFrom, if_neg (by simp [h])]

theorem anchor_loop_brk_eq {ab n : Nat} {check : Nat → Bool}
    {mem : List Nat} (hn : 1 ≤ n) :
    ∀ fuel q, mem.length ≤ fuel + q →
      anchor_loop ab 0 n true check mem fuel q =
        firstFrom (fun t => decide (t + n ≤ mem.length) &&
          (mem.getD t 0 == ab) && check t) (mem.length - q) q := by
  intro fuel
  induction fuel with
  | zero =>
    intro q hq
    have hz : mem.length - q = 0 := by omega
    rw [anchor_loop, hz]
    rfl
  | succ fuel ih =>
    intro q hq
    rw [anchor_loop]
    by_cases hab : mem.getD q 0 = ab
    · rw [if_pos hab]
      by_cases hroom : mem.length - q < n
      · rw [if_pos ⟨rfl, hroom⟩]
        symm
        rw [firstFrom_eq_none]
        intro t h1 h2
        have hnr : decide (t + n ≤ mem.length) = false :=
          decide_eq_false (by omega)
        simp only [hnr, Bool.false_and]
      · rw [if_neg (fun hcc => hroom hcc.2)]
        by_cases hchk : check (q - 0) = true
        · rw [if_pos ⟨Nat.zero_le q, by omega, hchk⟩]
          symm
          rw [firstFrom_eq_some]
          simp only [Nat.sub_zero] at hchk ⊢
          refine ⟨le_refl q, by omega, ?_, fun t ht1 ht2 => by omega⟩
          rw [decide_eq_true (by omega : q + n ≤ mem.length),
            beq_nat_true_of_eq hab, hchk]
          rfl
        · rw [if_neg (fun hcc => hchk hcc.2.2)]
          rw [ih (q + 1) (by omega)]
          have hcount : mem.length - q = (mem.length - (q + 1)) + 1 := by omega
          rw [hcount]
          symm
          apply firstFrom_succ_neg
          simp only [Nat.sub_zero] at hchk
          rw [Bool.eq_false_iff]
          intro hcc
          rw [Bool.and_eq_true, Bool.and_eq_true] at hcc
          exact hchk hcc.2
    · rw [if_neg hab]
      rw [ih (q + 1) (by omega)]
      by_cases hql : q < mem.length
      · have hcount : mem.length - q = (mem.length - (q + 1)) + 1 := by omega
        rw [hcount]
        symm
        apply firstFrom_succ_neg
        rw [beq_nat_false_of_ne hab]
        simp only [Bool.and_false, Bool.false_and]
      · have hz : mem.length - q = 0 := by omega
        have hz2 : mem.length - (q + 1) = 0 := by omega
        rw [hz, hz2]
        rfl

theorem anchor_loop_nobrk_eq {ab off n : Nat} {check : Nat → Bool}
    {mem : List Nat} (hoff : off < n) :
    ∀ fuel q, mem.length ≤ fuel + q →
      anchor_loop ab off n false check mem fuel q =
        (firstFrom (fun t => decide (off ≤ t) &&
          decide (t - off + n ≤ mem.length) && (mem.getD t 0 == ab) &&
          check (t - off)) (mem.length - q) q).map (fun t => t - off) := by
  intro fuel
  induction fuel with
  | zero =>
    intro q hq
    have hz : mem.length - q = 0 := by omega
    rw [anchor_loop, hz]
    rfl
  | succ fuel ih =>
    intro q hq
    rw [anchor_loop]
    have hnotbrk : ¬(false = true ∧ mem.length - q < n) := by
      rintro ⟨hcc, _⟩
      cases hcc
    by_cases hab : mem.getD q 0 = ab
    · rw [if_pos hab, if_neg hnotbrk]
      by_cases hg : off ≤ q ∧ q - off + n ≤ mem.length ∧ check (q - off) = true
      · rw [if_pos hg]
        have hql : q < mem.length := by
          obtain ⟨h1, h2, _⟩ := hg
          omega
        have hcount : mem.length - q = (mem.length - (q + 1)) + 1 := by omega
        rw [hcount]
        rw [firstFrom_succ_pos]
        · rfl
        · rw [decide_eq_true hg.1, decide_eq_true hg.2.1,
            beq_nat_true_of_eq hab, hg.2.2]
          rfl
      · rw [if_neg hg]
        rw [ih (q + 1) (by omega)]
        by_cases hql : q < mem.length
        · have hcount : mem.length - q = (mem.length - (q + 1)) + 1 := by omega
          rw [hcount]
          congr 1
          symm
          apply firstFrom_succ_neg
          rw [Bool.eq_false_iff]
          intro hcc
          rw [Bool.and_eq_true, Bool.and_eq_true, Bool.and_eq_true] at hcc
          exact hg ⟨of_decide_eq_true hcc.1.1.1, of_decide_eq_true hcc.1.1.2,
            hcc.2⟩
        · have hz : mem.length - q = 0 := by omega
          have hz2 : mem.length - (q + 1) = 0 := by omega
          rw [hz, hz2]
          rfl
    · rw [if_neg hab]
      rw [ih (q + 1) (by omega)]
      by_cases hql : q < mem.length
      · have hcount : mem.length - q = (mem.length - (q + 1)) + 1 := by omega
        rw [hcount]
        congr 1
        symm
        apply firstFrom_succ_neg
        rw [beq_nat_false_of_ne hab]
        simp only [Bool.and_false, Bool.false_and]
      · have hz : mem.length - q = 0 := by omega
        have hz2 : mem.length - (q + 1) = 0 := by omega
        rw [hz, hz2]
        rfl

/-- Converting the position-space result of a no-break anchor loop to
start-offset space. -/
theorem firstFrom_map_sub {off n len : Nat} {R base : Nat → Bool}
    (hoff : off < n) (hlen : n ≤ len)
    (hR : ∀ t, off ≤ t → R t = base (t - off)) :
    (firstFrom (fun t => decide (off ≤ t) && decide (t - off + n ≤ len) &&
        R t) len 0).map (fun t => t - off) =
      firstFrom base (len + 1 - n) 0 := by
  cases h : firstFrom base (len + 1 - n) 0 with
  | none =>
    rw [firstFrom_eq_none] at h
    have hq : firstFrom (fun t => decide (off ≤ t) &&
        decide (t - off + n ≤ len) && R t) len 0 = none := by
      rw [firstFrom_eq_none]
      intro t h1 h2
      by_cases hot : off ≤ t
      · by_cases hroom : t - off + n ≤ len
        · have hbase : base (t - off) = false :=
            h (t - off) (by omega) (by omega)
          rw [hR t hot, hbase, Bool.and_false]
        · rw [decide_eq_false hroom]
          simp only [Bool.and_false, Bool.false_and]
      · rw [decide_eq_false hot]
        simp only [Bool.false_and]
    rw [hq]
    rfl
  | some s =>
    rw [firstFrom_eq_some] at h
    obtain ⟨h0, h1, h2, h3⟩ := h
    have hq : firstFrom (fun t => decide (off ≤ t) &&
        decide (t - off + n ≤ len) && R t) len 0 = some (s + off) := by
      rw [firstFrom_eq_some]
      refine ⟨by omega, by omega, ?_, ?_⟩
      · have hsub : s + off - off = s := by omega
        rw [hR (s + off) (by omega), hsub, h2,
          decide_eq_true (show off ≤ s + off by omega),
          decide_eq_true (show s + n ≤ len by omega)]
        rfl
      · intro t ht0 hts
        by_cases hot : off ≤ t
        · by_cases hroom : t - off + n ≤ len
          · have hbase : base (t - off) = false :=
              h3 (t - off) (by omega) (by omega)
            rw [hR t hot, hbase, Bool.and_false]
          · rw [decide_eq_false hroom]
            simp only [Bool.and_false, Bool.false_and]
        · rw [decide_eq_false hot]
          simp only [Bool.false_and]
    rw [hq]
    simp [Nat.add_sub_cancel]

/-! ### Kernel normal forms -/

theorem scan_simple_eq_firstFrom {st : SigState} {mem : List Nat}
    (hsp : st.simple_pattern ≠ [])
    (hpos : ∀ b, 1 ≤ st.horspool_table b)
    (hle : ∀ b, st.horspool_table b ≤ st.simple_pattern.length)
    (hskip : ∀ b d, 1 ≤ d → d < st.horspool_table b →
      st.simple_pattern.getD (st.simple_pattern.length - 1 - d) 0 ≠ b) :
    scan_simple st mem =
      firstFrom (exactAt st.simple_pattern mem)
        (mem.length + 1 - st.simple_pattern.length) 0 := by
  rw [scan_simple]
  by_cases hlen : mem.length < st.simple_pattern.length
  · rw [if_pos (Or.inl hlen)]
    have hz : mem.length + 1 - st.simple_pattern.length = 0 := by omega
    rw [hz]
    rfl
  · rw [if_neg (not_or.mpr ⟨hlen, hsp⟩)]
    have := @bmh_loop_eq_firstFrom st.horspool_table st.simple_pattern mem
      hsp hpos hle hskip (mem.length + 1) 0 (by omega)
    simpa using this

theorem scan_forward_anchor_eq_firstFrom {st : SigState} {mem : List Nat}
    (hn : 1 ≤ st.pattern.length) :
    scan_forward_anchor st mem =
      firstFrom (fun s => (mem.getD s 0 == st.first_byte) &&
        full_match_at st mem s)
        (mem.length + 1 - st.pattern.length) 0 := by
  rw [scan_forward_anchor]
  by_cases hlen : mem.length < st.pattern.length
  · rw [if_pos hlen]
    have hz : mem.length + 1 - st.pattern.length = 0 := by omega
    rw [hz]
    rfl
  · rw [if_neg hlen]
    rw [anchor_loop_brk_eq hn mem.length 0 (by omega), Nat.sub_zero]
    apply firstFrom_ext
    · omega
    · intro t h1 h2
      rw [decide_eq_false (show ¬(t + st.pattern.length ≤ mem.length) by omega)]
      simp only [Bool.false_and]
    · intro t h1 h2
      rw [decide_eq_true (show t + st.pattern.length ≤ mem.length by omega)]
      simp only [Bool.true_and]

theorem scan_dual_anchor_eq_firstFrom {st : SigState} {mem : List Nat}
    (hn : 1 ≤ st.pattern.length) :
    scan_dual_anchor st mem =
      firstFrom (fun s => (mem.getD s 0 == st.first_byte) &&
        ((mem.getD (s + (st.pattern.length - 1)) 0 == st.last_byte) &&
          full_match_at st mem s))
        (mem.length + 1 - st.pattern.length) 0 := by
  rw [scan_dual_anchor]
  by_cases hlen : mem.length < st.pattern.length
  · rw [if_pos hlen]
    have hz : mem.length + 1 - st.pattern.length = 0 := by omega
    rw [hz]
    rfl
  · rw [if_neg hlen]
    rw [anchor_loop_brk_eq hn mem.length 0 (by omega), Nat.sub_zero]
    apply firstFrom_ext
    · omega
    · intro t h1 h2
      rw [decide_eq_false (show ¬(t + st.pattern.length ≤ mem.length) by omega)]
      simp only [Bool.false_and]
    · intro t h1 h2
      rw [decide_eq_true (show t + st.pattern.length ≤ mem.length by omega)]
      simp only [Bool.true_and]

theorem scan_backward_anchor_eq_firstFrom {st : SigState} {mem : List Nat}
    (hn : 1 ≤ st.pattern.length) :
    scan_backward_anchor st mem =
      firstFrom (fun s =>
        (mem.getD (s + (st.pattern.length - 1)) 0 == st.last_byte) &&
          full_match_at st mem s)
        (mem.length + 1 - st.pattern.length) 0 := by
  rw [scan_backward_anchor]
  by_cases hlen : mem.length < st.pattern.length
  · rw [if_pos hlen]
    have hz : mem.length + 1 - st.pattern.length = 0 := by omega
    rw [hz]
    rfl
  · rw [if_neg hlen]
    rw [anchor_loop_nobrk_eq (show st.pattern.length - 1 < st.pattern.length
      by omega) mem.length 0 (by omega), Nat.sub_zero]
    have hre : ∀ t, 0 ≤ t → t < 0 + mem.length →
        (decide (st.pattern.length - 1 ≤ t) &&
          decide (t - (st.pattern.length - 1) + st.pattern.length ≤
            mem.length) &&
          (mem.getD t 0 == st.last_byte) &&
          full_match_at st mem (t - (st.pattern.length - 1))) =
        (decide (st.pattern.length - 1 ≤ t) &&
          decide (t - (st.pattern.length - 1) + st.pattern.length ≤
            mem.length) &&
          ((mem.getD t 0 == st.last_byte) &&
            full_match_at st mem (t - (st.pattern.length - 1)))) :=
      fun t h1 h2 => by rw [Bool.and_assoc]
    rw [firstFrom_congr hre]
    apply firstFrom_map_sub (show st.pattern.length - 1 < st.pattern.length
      by omega) (by omega)
    intro t ht
    rw [Nat.sub_add_cancel ht]

theorem scan_dynamic_anchor_eq_firstFrom {st : SigState} {mem : List Nat}
    (_hn : 1 ≤ st.pattern.length)
    (hoff : first_solid_offset st.pattern < st.pattern.length) :
    scan_dynamic_anchor st mem =
      firstFrom (fun s =>
        (mem.getD (s + first_solid_offset st.pattern) 0 ==
          (st.pattern.getD (first_solid_offset st.pattern) default).value) &&
          full_match_at st mem s)
        (mem.length + 1 - st.pattern.length) 0 := by
  rw [scan_dynamic_anchor]
  by_cases hlen : mem.length < st.pattern.length
  · rw [if_pos hlen]
    have hz : mem.length + 1 - st.pattern.length = 0 := by omega
    rw [hz]
    rfl
  · rw [if_neg hlen]
    rw [anchor_loop_nobrk_eq hoff mem.length 0 (by omega), Nat.sub_zero]
    have hre : ∀ t, 0 ≤ t → t < 0 + mem.length →
        (decide (first_solid_offset st.pattern ≤ t) &&
          decide (t - first_solid_offset st.pattern + st.pattern.length ≤
            mem.length) &&
          (mem.getD t 0 ==
            (st.pattern.getD (first_solid_offset st.pattern) default).value) &&
          full_match_at st mem (t - first_solid_offset st.pattern)) =
        (decide (first_solid_offset st.pattern ≤ t) &&
          decide (t - first_solid_offset st.pattern + st.pattern.length ≤
            mem.length) &&
          ((mem.getD t 0 ==
            (st.pattern.getD (first_solid_offset st.pattern) default).value) &&
            full_match_at st mem (t - first_solid_offset st.pattern))) :=
      fun t h1 h2 => by rw [Bool.and_assoc]
    rw [firstFrom_congr hre]
    apply firstFrom_map_sub hoff (by omega)
    intro t ht
    rw [Nat.sub_add_cancel ht]

/-! ### First solid cell -/

theorem solid_index_lt : ∀ {pat : List PatternByte} {i : Nat},
    solid_index pat = some i → i < pat.length := by
  intro pat
  induction pat with
  | nil => intro i h; simp [solid_index] at h
  | cons c r ih =>
    intro i h
    rw [solid_index] at h
    by_cases hw : c.is_wildcard = true
    · rw [if_pos hw] at h
      cases hsi : solid_index r with
      | none => rw [hsi] at h; simp at h
      | some j =>
        rw [hsi] at h
        simp only [Option.map_some', Option.some.injEq] at h
        have := ih hsi
        simp only [List.length_cons]
        omega
    · rw [if_neg hw] at h
      simp only [Option.some.injEq] at h
      simp only [List.length_cons]
      omega

theorem solid_index_solid : ∀ {pat : List PatternByte} {i : Nat},
    solid_index pat = some i → (pat.getD i default).is_wildcard = false := by
  intro pat
  induction pat with
  | nil => intro i h; simp [solid_index] at h
  | cons c r ih =>
    intro i h
    rw [solid_index] at h
    by_cases hw : c.is_wildcard = true
    · rw [if_pos hw] at h
      cases hsi : solid_index r with
      | none => rw [hsi] at h; simp at h
      | some j =>
        rw [hsi] at h
        simp only [Option.map_some', Option.some.injEq] at h
        subst h
        simpa using ih hsi
    · rw [if_neg hw] at h
      simp only [Option.some.injEq] at h
      subst h
      simpa using Bool.eq_false_iff.mpr hw

theorem solid_index_none : ∀ {pat : List PatternByte},
    solid_index pat = none →
      ∀ j, j < pat.length → (pat.getD j default).is_wildcard = true := by
  intro pat
  induction pat with
  | nil => intro _ j hj; simp at hj
  | cons c r ih =>
    intro h j hj
    rw [solid_index] at h
    by_cases hw : c.is_wildcard = true
    · rw [if_pos hw] at h
      cases hsi : solid_index r with
      | some i => rw [hsi] at h; simp at h
      | none =>
        cases j with
        | zero => simpa using hw
        | succ j =>
          simp only [List.length_cons] at hj
          simpa using ih hsi j (by omega)
    · rw [if_neg hw] at h
      simp at h

theorem first_solid_offset_lt {pat : List PatternByte} (hne : pat ≠ []) :
    first_solid_offset pat < pat.length := by
  rw [first_solid_offset]
  cases hsi : solid_index pat with
  | none =>
    simp only [Option.getD_none]
    exact List.length_pos.mpr hne
  | some i =>
    simp only [Option.getD_some]
    exact solid_index_lt hsi

theorem first_solid_offset_solid {pat : List PatternByte}
    (h : ∃ i, i < pat.length ∧ (pat.getD i default).is_wildcard = false) :
    (pat.getD (first_solid_offset pat) default).is_wildcard = false := by
  rw [first_solid_offset]
  cases hsi : solid_index pat with
  | none =>
    exfalso
    obtain ⟨i, hi, hs⟩ := h
    have := solid_index_none hsi i hi
    rw [this] at hs
    cases hs
  | some i =>
    simp only [Option.getD_some]
    exact solid_index_solid hsi

/-! ### Analyzer field lemmas -/

theorem analyze_pattern_pattern (pat : List PatternByte) :
    (analyze_pattern pat).pattern = pat := by
  rw [analyze_pattern]
  split
  · rfl
  · split
    · rfl
    · split
      · rfl
      · split
        · rfl
        · split <;> rfl

theorem analyze_solid_strategy {pat : List PatternByte} (hne : pat ≠ [])
    (hw : pat.any (fun c => c.is_wildcard) = false) :
    (analyze_pattern pat).strategy = ScanStrategy.simple := by
  rw [analyze_pattern, if_neg hne, if_pos hw]

theorem analyze_solid_sp {pat : List PatternByte} (hne : pat ≠ [])
    (hw : pat.any (fun c => c.is_wildcard) = false) :
    (analyze_pattern pat).simple_pattern = pat.map (fun c => c.value) := by
  rw [analyze_pattern, if_neg hne, if_pos hw]

theorem analyze_solid_tbl {pat : List PatternByte} (hne : pat ≠ [])
    (hw : pat.any (fun c => c.is_wildcard) = false) :
    (analyze_pattern pat).horspool_table =
      horspool_build (pat.map (fun c => c.value)) := by
  rw [analyze_pattern, if_neg hne, if_pos hw]

theorem analyze_dual_strategy {pat : List PatternByte} (hne : pat ≠ [])
    (hw : ¬pat.any (fun c => c.is_wildcard) = false)
    (hd : (pat.getD 0 default).is_wildcard = false ∧
      (pat.getD (pat.length - 1) default).is_wildcard = false) :
    (analyze_pattern pat).strategy = ScanStrategy.dual_anchor := by
  rw [analyze_pattern, if_neg hne, if_neg hw, if_pos hd]

theorem analyze_dual_fb {pat : List PatternByte} (hne : pat ≠ [])
    (hw : ¬pat.any (fun c => c.is_wildcard) = false)
    (hd : (pat.getD 0 default).is_wildcard = false ∧
      (pat.getD (pat.length - 1) default).is_wildcard = false) :
    (analyze_pattern pat).first_byte = (pat.getD 0 default).value := by
  rw [analyze_pattern, if_neg hne, if_neg hw, if_pos hd]

theorem analyze_dual_lb {pat : List PatternByte} (hne : pat ≠ [])
    (hw : ¬pat.any (fun c => c.is_wildcard) = false)
    (hd : (pat.getD 0 default).is_wildcard = false ∧
      (pat.getD (pat.length - 1) default).is_wildcard = false) :
    (analyze_pattern pat).last_byte =
      (pat.getD (pat.length - 1) default).value := by
  rw [analyze_pattern, if_neg hne, if_neg hw, if_pos hd]

theorem analyze_dual_sp {pat : List PatternByte} (hne : pat ≠ [])
    (hw : ¬pat.any (fun c => c.is_wildcard) = false)
    (hd : (pat.getD 0 default).is_wildcard = false ∧
      (pat.getD (pat.length - 1) default).is_wildcard = false) :
    (analyze_pattern pat).simple_pattern = [] := by
  rw [analyze_pattern, if_neg hne, if_neg hw, if_pos hd]

theorem analyze_forward_strategy {pat : List PatternByte} (hne : pat ≠ [])
    (hw : ¬pat.any (fun c => c.is_wildcard) = false)
    (hd : ¬((pat.getD 0 default).is_wildcard = false ∧
      (pat.getD (pat.length - 1) default).is_wildcard = false))
    (hsw : (pat.getD 0 default).is_wildcard = false) :
    (analyze_pattern pat).strategy = ScanStrategy.forward_anchor := by
  rw [analyze_pattern, if_neg hne, if_neg hw, if_neg hd, if_pos hsw]

theorem analyze_forward_fb {pat : List PatternByte} (hne : pat ≠ [])
    (hw : ¬pat.any (fun c => c.is_wildcard) = false)
    (hd : ¬((pat.getD 0 default).is_wildcard = false ∧
      (pat.getD (pat.length - 1) default).is_wildcard = false))
    (hsw : (pat.getD 0 default).is_wildcard = false) :
    (analyze_pattern pat).first_byte = (pat.getD 0 default).value := by
  rw [analyze_pattern, if_neg hne, if_neg hw, if_neg hd, if_pos hsw]

theorem analyze_backward_strategy {pat : List PatternByte} (hne : pat ≠ [])
    (hw : ¬pat.any (fun c => c.is_wildcard) = false)
    (hd : ¬((pat.getD 0 default).is_wildcard = false ∧
      (pat.getD (pat.length - 1) default).is_wildcard = false))
    (hsw : ¬(pat.getD 0 default).is_wildcard = false)
    (hew : (pat.getD (pat.length - 1) default).is_wildcard = false) :
    (analyze_pattern pat).strategy = ScanStrategy.backward_anchor := by
  rw [analyze_pattern, if_neg hne, if_neg hw, if_neg hd, if_neg hsw, if_pos hew]

theorem analyze_backward_lb {pat : List PatternByte} (hne : pat ≠ [])
    (hw : ¬pat.any (fun c => c.is_wildcard) = false)
    (hd : ¬((pat.getD 0 default).is_wildcard = false ∧
      (pat.getD (pat.length - 1) default).is_wildcard = false))
    (hsw : ¬(pat.getD 0 default).is_wildcard = false)
    (hew : (pat.getD (pat.length - 1) default).is_wildcard = false) :
    (analyze_pattern pat).last_byte =
      (pat.getD (pat.length - 1) default).value := by
  rw [analyze_pattern, if_neg hne, if_neg hw, if_neg hd, if_neg hsw, if_pos hew]

theorem analyze_dynamic_strategy {pat : List PatternByte} (hne : pat ≠ [])
    (hw : ¬pat.any (fun c => c.is_wildcard) = false)
    (hd : ¬((pat.getD 0 default).is_wildcard = false ∧
      (pat.getD (pat.length - 1) default).is_wildcard = false))
    (hsw : ¬(pat.getD 0 default).is_wildcard = false)
    (hew : ¬(pat.getD (pat.length - 1) default).is_wildcard = false) :
    (analyze_pattern pat).strategy = ScanStrategy.dynamic_anchor := by
  rw [analyze_pattern, if_neg hne, if_neg hw, if_neg hd, if_neg hsw, if_neg hew]

/-! ### Pointwise predicate equivalences -/

theorem any_wild_false_iff {pat : List PatternByte} :
    pat.any (fun c => c.is_wildcard) = false ↔
      ∀ i, i < pat.length → (pat.getD i default).is_wildcard = false := by
  induction pat with
  | nil => simp
  | cons c r ih =>
    simp only [List.any_cons, Bool.or_eq_false_iff, List.length_cons]
    constructor
    · rintro ⟨h1, h2⟩ i hi
      cases i with
      | zero => simpa using h1
      | succ i => simpa using ih.mp h2 i (by omega)
    · intro h
      refine ⟨by simpa using h 0 (by omega), ih.mpr fun i hi => ?_⟩
      simpa using h (i + 1) (by omega)

theorem getD_map_value {pat : List PatternByte} :
    ∀ {j : Nat}, j < pat.length →
      (pat.map (fun c => c.value)).getD j 0 = (pat.getD j default).value := by
  induction pat with
  | nil => intro j hj; simp at hj
  | cons c r ih =>
    intro j hj
    cases j with
    | zero => rfl
    | succ j =>
      simp only [List.length_cons] at hj
      simpa using ih (by omega)

theorem and_eq_right {a b : Bool} (h : b = true → a = true) : (a && b) = b := by
  cases b
  · simp
  · simp [h rfl]

theorem spec_match_anchor {pat : List PatternByte} {mem : List Nat}
    {s i : Nat} (hi : i < pat.length)
    (hsolid : (pat.getD i default).is_wildcard = false)
    (hsm : spec_match_at pat mem s = true) :
    mem.getD (s + i) 0 = (pat.getD i default).value := by
  rcases spec_match_at_eq_true_iff.mp hsm i hi with h | h
  · rw [h] at hsolid
    cases hsolid
  · exact h

theorem exactAt_map_value_eq_spec_match {pat : List PatternByte}
    {mem : List Nat} {t : Nat}
    (hall : ∀ i, i < pat.length → (pat.getD i default).is_wildcard = false) :
    exactAt (pat.map (fun c => c.value)) mem t = spec_match_at pat mem t := by
  rw [Bool.eq_iff_iff, exactAt_eq_true_iff, spec_match_at_eq_true_iff]
  simp only [List.length_map]
  constructor
  · intro h i hi
    right
    rw [← getD_map_value hi]
    exact h i hi
  · intro h j hj
    rcases h j hj with hcc | hcc
    · rw [hall j hj] at hcc
      cases hcc
    · rw [getD_map_value hj]
      exact hcc

/-! ### The serial scan returns the first spec-level match
(patterns with at least one solid cell) -/

theorem scan_eq_spec_scan (pat : List PatternByte) (mem : List Nat)
    (hsolid : ∃ i, i < pat.length ∧ (pat.getD i default).is_wildcard = false) :
    scan pat mem = spec_scan pat mem := by
  obtain ⟨i0, hi0, hs0⟩ := hsolid
  have hne : pat ≠ [] := by
    intro h
    subst h
    simp at hi0
  have hn : 1 ≤ pat.length := List.length_pos.mpr hne
  rw [scan, if_neg hne, spec_scan]
  by_cases hw : pat.any (fun c => c.is_wildcard) = false
  · -- no wildcards: Boyer-Moore-Horspool
    have hall := any_wild_false_iff.mp hw
    rw [analyze_solid_strategy hne hw]
    simp only [kernel_of]
    have hvne : pat.map (fun c => c.value) ≠ [] := by
      simpa using hne
    have hvlen : 1 ≤ (pat.map (fun c => c.value)).length := by
      simpa using hn
    rw [scan_simple_eq_firstFrom
        (by rw [analyze_solid_sp hne hw]; exact hvne)
        (by rw [analyze_solid_tbl hne hw]
            exact fun b => horspool_build_pos _ hvlen b)
        (by rw [analyze_solid_tbl hne hw, analyze_solid_sp hne hw]
            exact fun b => horspool_build_le _ b)
        (by rw [analyze_solid_tbl hne hw, analyze_solid_sp hne hw]
            exact fun b d h1 h2 => horspool_build_skip _ b d h1 h2)]
    rw [analyze_solid_sp hne hw]
    simp only [List.length_map]
    apply firstFrom_congr
    intro t h1 h2
    exact exactAt_map_value_eq_spec_match hall
  · by_cases hd : (pat.getD 0 default).is_wildcard = false ∧
        (pat.getD (pat.length - 1) default).is_wildcard = false
    · -- dual anchor
      rw [analyze_dual_strategy hne hw hd]
      simp only [kernel_of]
      rw [scan_dual_anchor_eq_firstFrom
        (by rw [analyze_pattern_pattern]; exact hn)]
      rw [analyze_pattern_pattern, analyze_dual_fb hne hw hd,
        analyze_dual_lb hne hw hd]
      apply firstFrom_congr
      intro t ht1 ht2
      rw [full_match_at_generic (by
        rintro ⟨_, hsp⟩
        exact hsp (analyze_dual_sp hne hw hd)), analyze_pattern_pattern]
      rw [and_eq_right (fun hsm => beq_nat_true_of_eq
        (spec_match_anchor (by omega) hd.2 hsm))]
      exact and_eq_right (fun hsm => by
        have := spec_match_anchor (by omega) hd.1 hsm
        rw [Nat.add_zero] at this
        exact beq_nat_true_of_eq this)
    · by_cases hsw : (pat.getD 0 default).is_wildcard = false
      · -- forward anchor
        rw [analyze_forward_strategy hne hw hd hsw]
        simp only [kernel_of]
        rw [scan_forward_anchor_eq_firstFrom
          (by rw [analyze_pattern_pattern]; exact hn)]
        rw [analyze_pattern_pattern, analyze_forward_fb hne hw hd hsw]
        apply firstFrom_congr
        intro t ht1 ht2
        rw [full_match_at_generic (by
          rintro ⟨hstr, _⟩
          rw [analyze_forward_strategy hne hw hd hsw] at hstr
          cases hstr), analyze_pattern_pattern]
        exact and_eq_right (fun hsm => by
          have := spec_match_anchor (by omega) hsw hsm
          rw [Nat.add_zero] at this
          exact beq_nat_true_of_eq this)
      · by_cases hew : (pat.getD (pat.length - 1) default).is_wildcard = false
        · -- backward anchor
          rw [analyze_backward_strategy hne hw hd hsw hew]
          simp only [kernel_of]
          rw [scan_backward_anchor_eq_firstFrom
            (by rw [analyze_pattern_pattern]; exact hn)]
          rw [analyze_pattern_pattern, analyze_backward_lb hne hw hd hsw hew]
          apply firstFrom_congr
          intro t ht1 ht2
          rw [full_match_at_generic (by
            rintro ⟨hstr, _⟩
            rw [analyze_backward_strategy hne hw hd hsw hew] at hstr
            cases hstr), analyze_pattern_pattern]
          exact and_eq_right (fun hsm => beq_nat_true_of_eq
            (spec_match_anchor (by omega) hew hsm))
        · -- dynamic anchor
          rw [analyze_dynamic_strategy hne hw hd hsw hew]
          simp only [kernel_of]
          rw [scan_dynamic_anchor_eq_firstFrom
            (by rw [analyze_pattern_pattern]; exact hn)
            (by rw [analyze_pattern_pattern]; exact first_solid_offset_lt hne)]
          rw [analyze_pattern_pattern]
          apply firstFrom_congr
          intro t ht1 ht2
          rw [full_match_at_generic (by
            rintro ⟨hstr, _⟩
            rw [analyze_dynamic_strategy hne hw hd hsw hew] at hstr
            cases hstr), analyze_pattern_pattern]
          exact and_eq_right (fun hsm => beq_nat_true_of_eq
            (spec_match_anchor (first_solid_offset_lt hne)
              (first_solid_offset_solid ⟨i0, hi0, hs0⟩) hsm))

/-! ### Parallel single-range scan (`scan_multithreaded`)

The deterministic result skeleton of `scan_multithreaded`: the chunk
decomposition (`chunk_size = 65536 * 4`, overlap
`pattern_.size() > 1 ? pattern_.size() - 1 : 0`, a chunk submitted
only when `start < end && (end - start) >= pattern_.size()`), each
chunk scanned by the strategy kernel, and the driver's minimum
selection over the collected futures.  The cooperative-cancellation
flag only lets workers stop early after some chunk has already found a
match; it does not contribute to the returned value, which is always
the minimum over the completed futures, so it is not part of the
result model. -/

def chunk_size : Nat := 65536 * 4

/-- The submission loop `for (start = 0; start < size; start += chunk_size)`. -/
def chunk_starts (len : Nat) : List Nat :=
  (List.range ((len + chunk_size - 1) / chunk_size)).map
    (fun k => k * chunk_size)

/-- The driver's result collection: keep the smallest returned address
(`if (!first_result || result < first_result) first_result = result`). -/
def combine_min (results : List Nat) : Option Nat :=
  results.foldl (fun acc r =>
    match acc with
    | none => some r
    | some a => if r < a then some r else some a) none

def scan_multithreaded (st : SigState)
    (kern : SigState → List Nat → Option Nat) (mem : List Nat) : Option Nat :=
  if mem.length < chunk_size then kern st mem
  else
    combine_min ((chunk_starts mem.length).filterMap (fun start =>
      let e := min (start + chunk_size +
        (if 1 < st.pattern.length then st.pattern.length - 1 else 0))
        mem.length
      if start < e ∧ st.pattern.length ≤ e - start then
        (kern st ((mem.drop start).take (e - start))).map (fun t => t + start)
      else none))

/-- `runtime_signature::scan(span)` with `UR_ENABLE_MULTITHREADING`
(and more than one hardware thread). -/
def scan_parallel (pat : List PatternByte) (mem : List Nat) : Option Nat :=
  if pat = [] then none
  else scan_multithreaded (analyze_pattern pat)
    (kernel_of (analyze_pattern pat).strategy) mem

theorem combine_min_go (f : Option Nat → Nat → Option Nat)
    (hf : ∀ a r, f (some a) r = some (if r < a then r else a)) :
    ∀ (t : List Nat) (a : Nat), t.foldl f (some a) = some (t.foldl Nat.min a) := by
  intro t
  induction t with
  | nil => intro a; simp
  | cons b t ih =>
    intro a
    rw [List.foldl_cons, List.foldl_cons, hf]
    rw [ih]
    congr 1
    have hmd : Nat.min a b = if a ≤ b then a else b := Nat.min_def
    by_cases h : b < a
    · rw [if_pos h, hmd, if_neg (by omega)]
    · rw [if_neg h, hmd, if_pos (by omega)]

theorem foldl_min_eq : ∀ (t : List Nat) (a x : Nat),
    (x = a ∨ x ∈ t) → x ≤ a → (∀ r, r ∈ t → x ≤ r) →
    t.foldl Nat.min a = x := by
  intro t
  induction t with
  | nil =>
    intro a x hmem hxa _
    rcases hmem with rfl | hmem
    · rfl
    · simp at hmem
  | cons b t ih =>
    intro a x hmem hxa hall
    rw [List.foldl_cons]
    have hxb : x ≤ b := hall b (by simp)
    rcases hmem with rfl | hmem
    · exact ih (Nat.min x b) x (Or.inl (Nat.min_eq_left hxb).symm)
        (Nat.le_min.mpr ⟨le_refl x, hxb⟩)
        (fun r hr => hall r (by simp [hr]))
    · rw [List.mem_cons] at hmem
      rcases hmem with rfl | hmem
      · exact ih (Nat.min a x) x (Or.inl (Nat.min_eq_right hxa).symm)
          (Nat.le_min.mpr ⟨hxa, le_refl x⟩)
          (fun r hr => hall r (by simp [hr]))
      · exact ih (Nat.min a b) x (Or.inr hmem)
          (Nat.le_min.mpr ⟨hxa, hxb⟩)
          (fun r hr => hall r (by simp [hr]))

theorem combine_min_eq_some {l : List Nat} {x : Nat} (hmem : x ∈ l)
    (hall : ∀ r, r ∈ l → x ≤ r) : combine_min l = some x := by
  cases l with
  | nil => simp at hmem
  | cons a t =>
    rw [combine_min, List.foldl_cons]
    have hstep : ∀ (a r : Nat),
        (fun (acc : Option Nat) (r : Nat) =>
          match acc with
          | none => some r
          | some a => if r < a then some r else some a) (some a) r =
          some (if r < a then r else a) := by
      intro a r
      by_cases h : r < a
      · simp [h]
      · simp [h]
    rw [combine_min_go _ hstep]
    rw [List.mem_cons] at hmem
    congr 1
    rcases hmem with rfl | hmem
    · exact foldl_min_eq t x x (Or.inl rfl) (le_refl x)
        (fun r hr => hall r (by simp [hr]))
    · exact foldl_min_eq t a x (Or.inr hmem) (hall a (by simp))
        (fun r hr => hall r (by simp [hr]))

/-- Reading a byte of a chunk reads the corresponding byte of the
whole range. -/
theorem chunk_getD {mem : List Nat} {start e i : Nat} (hi : i < e - start) :
    ((mem.drop start).take (e - start)).getD i 0 = mem.getD (start + i) 0 := by
  rw [List.getD_eq_getElem?_getD, List.getD_eq_getElem?_getD]
  rw [List.getElem?_take, if_pos hi, List.getElem?_drop]

/-- Splitting a range into overlapping chunks preserves the first
match of any window-local predicate of width `n`: the minimum over the
per-chunk first matches is the global first match. -/
theorem chunked_firstFrom_eq {P : List Nat → Nat → Bool} {n : Nat}
    (hn : 1 ≤ n)
    (hloc : ∀ m1 s1 m2 s2, (∀ i, i < n →
      m1.getD (s1 + i) 0 = m2.getD (s2 + i) 0) → P m1 s1 = P m2 s2)
    (mem : List Nat) :
    combine_min ((chunk_starts mem.length).filterMap (fun start =>
      let e := min (start + chunk_size + (if 1 < n then n - 1 else 0))
        mem.length
      if start < e ∧ n ≤ e - start then
        (firstFrom (P ((mem.drop start).take (e - start)))
          ((e - start) + 1 - n) 0).map (fun t => t + start)
      else none)) =
    firstFrom (P mem) (mem.length + 1 - n) 0 := by
  have hC : chunk_size = 65536 * 4 := rfl
  have hovl : (if 1 < n then n - 1 else 0) = n - 1 := by
    by_cases h : 1 < n
    · rw [if_pos h]
    · rw [if_neg h]
      omega
  rw [hovl]
  -- a chunk-local predicate value equals the global one
  have hchunkP : ∀ start e t, e ≤ mem.length → t + n ≤ e - start →
      P ((mem.drop start).take (e - start)) t = P mem (start + t) := by
    intro start e t he ht
    apply hloc
    intro i hi
    rw [chunk_getD (by omega)]
    congr 1
    omega
  -- any result of a submitted chunk is a global match below the window bound
  have hsound : ∀ start e t, e = min (start + chunk_size + (n - 1)) mem.length →
      start < e → n ≤ e - start →
      firstFrom (P ((mem.drop start).take (e - start))) ((e - start) + 1 - n) 0 =
        some t →
      P mem (start + t) = true ∧ start + t < mem.length + 1 - n := by
    intro start e t he hs1 hs2 hft
    rw [firstFrom_eq_some] at hft
    obtain ⟨_, h1, h2, _⟩ := hft
    have hemem : e ≤ mem.length := by
      rw [he]
      omega
    have htn : t + n ≤ e - start := by omega
    constructor
    · rw [← hchunkP start e t hemem htn]
      exact h2
    · omega
  cases hG : firstFrom (P mem) (mem.length + 1 - n) 0 with
  | none =>
    rw [firstFrom_eq_none] at hG
    have hnil : (chunk_starts mem.length).filterMap (fun start =>
        let e := min (start + chunk_size + (n - 1)) mem.length
        if start < e ∧ n ≤ e - start then
          (firstFrom (P ((mem.drop start).take (e - start)))
            ((e - start) + 1 - n) 0).map (fun t => t + start)
        else none) = [] := by
      rw [List.filterMap_eq_nil_iff]
      intro start hstart
      simp only []
      set e := min (start + chunk_size + (n - 1)) mem.length with hedef
      by_cases hsub : start < e ∧ n ≤ e - start
      · rw [if_pos hsub]
        cases hft : firstFrom (P ((mem.drop start).take (e - start)))
            ((e - start) + 1 - n) 0 with
        | none => rfl
        | some t =>
          exfalso
          have := hsound start e t hedef hsub.1 hsub.2 hft
          exact absurd this.1
            (by rw [hG (start + t) (by omega) (by omega)]; simp)
      · rw [if_neg hsub]
    rw [hnil]
    rfl
  | some s =>
    have hGs := hG
    rw [firstFrom_eq_some] at hGs
    obtain ⟨_, hsW, hPs, hmin⟩ := hGs
    have hslen : s + n ≤ mem.length := by omega
    -- the chunk containing s
    set k := s / chunk_size with hk
    set start := k * chunk_size with hstart
    have hCpos : 0 < chunk_size := by rw [hC]; omega
    have hks : start ≤ s := by
      rw [hstart, hk]
      exact Nat.div_mul_le_self s chunk_size
    have hsC : s < start + chunk_size := by
      rw [hstart, hk]
      have h1 := Nat.div_add_mod s chunk_size
      have h2 := Nat.mod_lt s hCpos
      have h3 : s / chunk_size * chunk_size = chunk_size * (s / chunk_size) :=
        Nat.mul_comm _ _
      omega
    set e := min (start + chunk_size + (n - 1)) mem.length with hedef
    have hse : s + n ≤ e := by
      rw [hedef]
      have h1 : s + n ≤ start + chunk_size + (n - 1) := by omega
      omega
    have hsub1 : start < e := by omega
    have hsub2 : n ≤ e - start := by omega
    have hemem : e ≤ mem.length := by rw [hedef]; omega
    have hmemstart : start ∈ chunk_starts mem.length := by
      rw [chunk_starts, List.mem_map]
      refine ⟨k, ?_, rfl⟩
      rw [List.mem_range]
      have hk2 : k + 1 ≤ (mem.length + chunk_size - 1) / chunk_size := by
        rw [Nat.le_div_iff_mul_le hCpos]
        have hmul : (k + 1) * chunk_size = k * chunk_size + chunk_size := by
          ring
        omega
      omega
    -- that chunk finds exactly s
    have htloc : (s - start) + n ≤ e - start := by omega
    have hPtloc : P ((mem.drop start).take (e - start)) (s - start) = true := by
      rw [hchunkP start e (s - start) hemem htloc]
      have : start + (s - start) = s := by omega
      rw [this]
      exact hPs
    have hchunkres : firstFrom (P ((mem.drop start).take (e - start)))
        ((e - start) + 1 - n) 0 = some (s - start) := by
      cases hft : firstFrom (P ((mem.drop start).take (e - start)))
          ((e - start) + 1 - n) 0 with
      | none =>
        exfalso
        rw [firstFrom_eq_none] at hft
        exact absurd hPtloc
          (by rw [hft (s - start) (by omega) (by omega)]; simp)
      | some t =>
        have hglob := hsound start e t hedef hsub1 hsub2 hft
        rw [firstFrom_eq_some] at hft
        obtain ⟨_, htW, hPt, htmin⟩ := hft
        have hts : s ≤ start + t := by
          by_contra hcc
          exact absurd hglob.1
            (by rw [hmin (start + t) (by omega) (by omega)]; simp)
        have hts2 : t ≤ s - start := by
          by_contra hcc
          exact absurd hPtloc
            (by rw [htmin (s - start) (by omega) (by omega)]; simp)
        have : t = s - start := by omega
        rw [this]
    -- s is among the collected results
    have hmem_s : s ∈ (chunk_starts mem.length).filterMap (fun start =>
        let e := min (start + chunk_size + (n - 1)) mem.length
        if start < e ∧ n ≤ e - start then
          (firstFrom (P ((mem.drop start).take (e - start)))
            ((e - start) + 1 - n) 0).map (fun t => t + start)
        else none) := by
      rw [List.mem_filterMap]
      refine ⟨start, hmemstart, ?_⟩
      simp only []
      rw [← hedef, if_pos ⟨hsub1, hsub2⟩, hchunkres]
      simp only [Option.map_some']
      congr 1
      omega
    -- every collected result is at least s
    have hge : ∀ r, r ∈ (chunk_starts mem.length).filterMap (fun start =>
        let e := min (start + chunk_size + (n - 1)) mem.length
        if start < e ∧ n ≤ e - start then
          (firstFrom (P ((mem.drop start).take (e - start)))
            ((e - start) + 1 - n) 0).map (fun t => t + start)
        else none) → s ≤ r := by
      intro r hr
      rw [List.mem_filterMap] at hr
      obtain ⟨start2, _, hfr⟩ := hr
      simp only [] at hfr
      set e2 := min (start2 + chunk_size + (n - 1)) mem.length with he2
      by_cases hsub : start2 < e2 ∧ n ≤ e2 - start2
      · rw [if_pos hsub] at hfr
        cases hft : firstFrom (P ((mem.drop start2).take (e2 - start2)))
            ((e2 - start2) + 1 - n) 0 with
        | none => rw [hft] at hfr; simp at hfr
        | some t =>
          rw [hft] at hfr
          simp only [Option.map_some', Option.some.injEq] at hfr
          have hglob := hsound start2 e2 t he2 hsub.1 hsub.2 hft
          by_contra hcc
          exact absurd hglob.1
            (by rw [hmin (start2 + t) (by omega) (by omega)]; simp)
      · rw [if_neg hsub] at hfr
        simp at hfr
    exact combine_min_eq_some hmem_s hge

/-! ### Window locality of the match checks -/

theorem spec_match_at_local {pat : List PatternByte} {m1 m2 : List Nat}
    {s1 s2 : Nat}
    (h : ∀ i, i < pat.length → m1.getD (s1 + i) 0 = m2.getD (s2 + i) 0) :
    spec_match_at pat m1 s1 = spec_match_at pat m2 s2 := by
  rw [Bool.eq_iff_iff, spec_match_at_eq_true_iff, spec_match_at_eq_true_iff]
  constructor
  · intro hh i hi
    rcases hh i hi with hc | hc
    · exact Or.inl hc
    · exact Or.inr (by rw [← h i hi]; exact hc)
  · intro hh i hi
    rcases hh i hi with hc | hc
    · exact Or.inl hc
    · exact Or.inr (by rw [h i hi]; exact hc)

theorem exactAt_local {vals : List Nat} {m1 m2 : List Nat} {s1 s2 : Nat}
    (h : ∀ i, i < vals.length → m1.getD (s1 + i) 0 = m2.getD (s2 + i) 0) :
    exactAt vals m1 s1 = exactAt vals m2 s2 := by
  rw [Bool.eq_iff_iff, exactAt_eq_true_iff, exactAt_eq_true_iff]
  constructor
  · intro hh j hj
    rw [← h j hj]
    exact hh j hj
  · intro hh j hj
    rw [h j hj]
    exact hh j hj

theorem full_match_at_local {st : SigState} {m1 m2 : List Nat} {s1 s2 : Nat}
    (hnd : ¬(st.strategy = ScanStrategy.dual_anchor ∧ st.simple_pattern ≠ []))
    (h : ∀ i, i < st.pattern.length →
      m1.getD (s1 + i) 0 = m2.getD (s2 + i) 0) :
    full_match_at st m1 s1 = full_match_at st m2 s2 := by
  rw [full_match_at_generic hnd, full_match_at_generic hnd]
  exact spec_match_at_local h

theorem filterMap_congr_own {f g : Nat → Option Nat} :
    ∀ {l : List Nat}, (∀ a, a ∈ l → f a = g a) →
      l.filterMap f = l.filterMap g := by
  intro l
  induction l with
  | nil => intro _; rfl
  | cons a t ih =>
    intro h
    rw [List.filterMap_cons, List.filterMap_cons, h a (by simp)]
    cases g a with
    | none => exact ih fun b hb => h b (by simp [hb])
    | some v =>
      rw [ih fun b hb => h b (by simp [hb])]

/-! ### Forced kernels with fully populated auxiliary data (claim C4) -/

/-- The auxiliary state a kernel would need if it were chosen for this
pattern: anchor bytes, the raw byte copy, and the skip table are all
filled in from the pattern (unlike `analyze_pattern`, which fills only
the fields of the selected strategy). -/
def populate (pat : List PatternByte) : SigState :=
  { pattern := pat
    strategy := (analyze_pattern pat).strategy
    first_byte := (pat.getD 0 default).value
    last_byte := (pat.getD (pat.length - 1) default).value
    simple_pattern := pat.map (fun c => c.value)
    horspool_table := horspool_build (pat.map (fun c => c.value)) }

/-! ### Multi-range entry point (serial build) -/

/-- A caller-supplied memory range: the `(const void*, const void*)`
pair plus the bytes at `[start, stop)`. -/
structure MemRange where
  start : Nat
  stop : Nat
  bytes : List Nat
deriving DecidableEq, Repr

/-- The serial loop of `runtime_signature::scan(ranges)`: ranges with
`start >= end` are skipped (`continue`), the first range whose scan
hits wins, and the returned address is absolute. -/
def scan_ranges_go (kern : List Nat → Option Nat) :
    List MemRange → Option Nat
  | [] => none
  | r :: t =>
    if r.stop ≤ r.start then scan_ranges_go kern t
    else
      match kern r.bytes with
      | some s => some (r.start + s)
      | none => scan_ranges_go kern t

/-- `runtime_signature::scan(ranges)` in the serial build. -/
def scan_ranges (pat : List PatternByte) (rs : List MemRange) : Option Nat :=
  if pat = [] ∨ rs = [] then none
  else scan_ranges_go
    (kernel_of (analyze_pattern pat).strategy (analyze_pattern pat)) rs

theorem scan_ranges_go_filter (kern : List Nat → Option Nat) :
    ∀ rs : List MemRange, scan_ranges_go kern rs =
      scan_ranges_go kern (rs.filter (fun r => decide (r.start < r.stop))) := by
  intro rs
  induction rs with
  | nil => rfl
  | cons r t ih =>
    rw [scan_ranges_go]
    by_cases h : r.stop ≤ r.start
    · rw [if_pos h, List.filter_cons, if_neg (by simp; omega)]
      exact ih
    · rw [if_neg h, List.filter_cons, if_pos (by simp; omega)]
      rw [scan_ranges_go, if_neg h]
      cases kern r.bytes with
      | some s => rfl
      | none => exact ih

/-- On a wildcard-free non-empty pattern, each of the five kernels,
given the fully populated auxiliary state, returns the first
spec-level match. -/
theorem kernel_populate_eq_spec (pat : List PatternByte) (mem : List Nat)
    (hne : pat ≠ [])
    (hall : ∀ i, i < pat.length → (pat.getD i default).is_wildcard = false) :
    ∀ K, kernel_of K (populate pat) mem = spec_scan pat mem := by
  have hn : 1 ≤ pat.length := List.length_pos.mpr hne
  have hw : pat.any (fun c => c.is_wildcard) = false := any_wild_false_iff.mpr hall
  have hstr : (populate pat).strategy = ScanStrategy.simple := by
    show (analyze_pattern pat).strategy = _
    exact analyze_solid_strategy hne hw
  have hnd : ¬((populate pat).strategy = ScanStrategy.dual_anchor ∧
      (populate pat).simple_pattern ≠ []) := by
    rintro ⟨hcc, _⟩
    rw [hstr] at hcc
    cases hcc
  have hpp : (populate pat).pattern = pat := rfl
  have hfm : ∀ s, full_match_at (populate pat) mem s =
      spec_match_at pat mem s := by
    intro s
    rw [full_match_at_generic hnd, hpp]
  have hvne : pat.map (fun c => c.value) ≠ [] := by simpa using hne
  have hvlen : 1 ≤ (pat.map (fun c => c.value)).length := by simpa using hn
  have hanchor0 : ∀ t, spec_match_at pat mem t = true →
      (mem.getD t 0 == (pat.getD 0 default).value) = true := by
    intro t hsm
    have := spec_match_anchor (by omega) (hall 0 (by omega)) hsm
    rw [Nat.add_zero] at this
    exact beq_nat_true_of_eq this
  have hanchorL : ∀ t, spec_match_at pat mem t = true →
      (mem.getD (t + (pat.length - 1)) 0 ==
        (pat.getD (pat.length - 1) default).value) = true := by
    intro t hsm
    exact beq_nat_true_of_eq
      (spec_match_anchor (by omega) (hall _ (by omega)) hsm)
  intro K
  rw [spec_scan]
  cases K with
  | simple =>
    show scan_simple (populate pat) mem = _
    rw [scan_simple_eq_firstFrom hvne (fun b => horspool_build_pos _ hvlen b)
      (fun b => horspool_build_le _ b)
      (fun b d h1 h2 => horspool_build_skip _ b d h1 h2)]
    rw [show (populate pat).simple_pattern = pat.map (fun c => c.value)
      from rfl]
    simp only [List.length_map]
    apply firstFrom_congr
    intro t h1 h2
    exact exactAt_map_value_eq_spec_match hall
  | forward_anchor =>
    show scan_forward_anchor (populate pat) mem = _
    rw [scan_forward_anchor_eq_firstFrom hn]
    rw [show (populate pat).first_byte = (pat.getD 0 default).value from rfl,
      hpp]
    apply firstFrom_congr
    intro t h1 h2
    rw [hfm t]
    exact and_eq_right (hanchor0 t)
  | backward_anchor =>
    show scan_backward_anchor (populate pat) mem = _
    rw [scan_backward_anchor_eq_firstFrom hn]
    rw [show (populate pat).last_byte =
      (pat.getD (pat.length - 1) default).value from rfl, hpp]
    apply firstFrom_congr
    intro t h1 h2
    rw [hfm t]
    exact and_eq_right (hanchorL t)
  | dual_anchor =>
    show scan_dual_anchor (populate pat) mem = _
    rw [scan_dual_anchor_eq_firstFrom hn]
    rw [show (populate pat).first_byte = (pat.getD 0 default).value from rfl,
      show (populate pat).last_byte =
        (pat.getD (pat.length - 1) default).value from rfl, hpp]
    apply firstFrom_congr
    intro t h1 h2
    rw [hfm t]
    rw [and_eq_right (hanchorL t)]
    exact and_eq_right (hanchor0 t)
  | dynamic_anchor =>
    show scan_dynamic_anchor (populate pat) mem = _
    rw [scan_dynamic_anchor_eq_firstFrom hn (first_solid_offset_lt hne)]
    rw [hpp]
    apply firstFrom_congr
    intro t h1 h2
    rw [hfm t]
    exact and_eq_right (fun hsm => beq_nat_true_of_eq
      (spec_match_anchor (first_solid_offset_lt hne)
        (hall _ (first_solid_offset_lt hne)) hsm))

/-- Chunking concentrate: once a kernel is known to compute the first
match of a window-local predicate, the multithreaded driver computes
the same result as the kernel itself. -/
theorem scan_multithreaded_eq_of_NF {st : SigState}
    {kern : SigState → List Nat → Option Nat}
    {P : List Nat → Nat → Bool} {n : Nat} (hn : 1 ≤ n)
    (hpn : st.pattern.length = n)
    (hNF : ∀ m : List Nat, kern st m = firstFrom (P m) (m.length + 1 - n) 0)
    (hloc : ∀ m1 s1 m2 s2, (∀ i, i < n →
      m1.getD (s1 + i) 0 = m2.getD (s2 + i) 0) → P m1 s1 = P m2 s2)
    (mem : List Nat) :
    scan_multithreaded st kern mem = kern st mem := by
  rw [scan_multithreaded]
  by_cases hsmall : mem.length < chunk_size
  · rw [if_pos hsmall]
  · rw [if_neg hsmall]
    rw [hNF mem, ← chunked_firstFrom_eq hn hloc mem]
    apply congrArg combine_min
    apply filterMap_congr_own
    intro start hs
    simp only [hpn]
    set e := min (start + chunk_size + (if 1 < n then n - 1 else 0))
      mem.length with hedef
    by_cases hcond : start < e ∧ n ≤ e - start
    · rw [if_pos hcond, if_pos hcond]
      have he : e ≤ mem.length := by
        rw [hedef]
        exact Nat.min_le_right _ _
      have hclen : ((mem.drop start).take (e - start)).length = e - start := by
        rw [List.length_take, List.length_drop]
        exact Nat.min_eq_left (by omega)
      rw [hNF ((mem.drop start).take (e - start)), hclen]
    · rw [if_neg hcond, if_neg hcond]

/-! ### Agreement of two patterns up to wildcard values (claim C7) -/

/-- Two cell sequences agree on length, on every wildcard flag and on
the value of every non-wildcard cell (the values stored in wildcard
cells may differ). -/
def same_shape (p q : List PatternByte) : Prop :=
  p.length = q.length ∧ ∀ i, i < p.length →
    ((p.getD i default).is_wildcard = (q.getD i default).is_wildcard ∧
     ((p.getD i default).is_wildcard = false →
       (p.getD i default).value = (q.getD i default).value))

instance same_shape_decidable (p q : List PatternByte) :
    Decidable (same_shape p q) := by
  unfold same_shape
  infer_instance

/-! ### Claims -/

/-- C1 (amended): for every compiled pattern containing at least one
non-wildcard cell and every byte range, `scan` returns the lowest
offset at which the pattern matches per the spec's match definition
(`spec_scan` is the least in-bounds offset satisfying
`spec_match_at`), and "not found" exactly when no offset matches.  The
original claim, quantified over all patterns, fails on patterns with
no solid cell (see the counterexample). -/
theorem urscan_C1 (pat : List PatternByte) (mem : List Nat)
    (hsolid : ∃ i, i < pat.length ∧ (pat.getD i default).is_wildcard = false) :
    scan pat mem = spec_scan pat mem :=
  scan_eq_spec_scan pat mem hsolid

/-- C1 witness: a concrete pattern `12 ??` on a concrete range. -/
theorem urscan_C1_witness :
    (∃ i, i < ([⟨18, false⟩, ⟨0, true⟩] : List PatternByte).length ∧
      (([⟨18, false⟩, ⟨0, true⟩] : List PatternByte).getD i
        default).is_wildcard = false) ∧
    scan [⟨18, false⟩, ⟨0, true⟩] [0, 18, 52] =
      spec_scan [⟨18, false⟩, ⟨0, true⟩] [0, 18, 52] :=
  ⟨⟨0, by decide⟩, urscan_C1 [⟨18, false⟩, ⟨0, true⟩] [0, 18, 52] ⟨0, by decide⟩⟩

/-- C1 counterexample: for the all-wildcard pattern `??` and the range
`[0xFF]`, offset 0 is in range and satisfies the spec's match
definition, yet `scan` returns "not found" (the dynamic-anchor kernel
searches for the wildcard cell's stored value 0).  This refutes the
claim's completeness clause as stated over every compiled pattern. -/
theorem urscan_C1_cex :
    scan [⟨0, true⟩] [255] = none ∧
    spec_match_at [⟨0, true⟩] [255] 0 = true ∧
    0 + ([⟨0, true⟩] : List PatternByte).length ≤ ([255] : List Nat).length := by
  decide

/-- C2: the parallel single-range scan (chunks of length 262144 with
overlap `n - 1`, a chunk submitted only if its length is at least `n`,
minimum over all chunk results) returns the same result as the serial
scan, for every pattern and range. -/
theorem urscan_C2 (pat : List PatternByte) (mem : List Nat) :
    scan_parallel pat mem = scan pat mem := by
  rw [scan_parallel, scan]
  by_cases hne : pat = []
  · rw [if_pos hne, if_pos hne]
  · rw [if_neg hne, if_neg hne]
    have hn : 1 ≤ pat.length := List.length_pos.mpr hne
    have hpn : (analyze_pattern pat).pattern.length = pat.length := by
      rw [analyze_pattern_pattern]
    by_cases hw : pat.any (fun c => c.is_wildcard) = false
    · -- simple
      have hvne : pat.map (fun c => c.value) ≠ [] := by simpa using hne
      have hvlen : 1 ≤ (pat.map (fun c => c.value)).length := by simpa using hn
      have hNF : ∀ m : List Nat,
          kernel_of (analyze_pattern pat).strategy (analyze_pattern pat) m =
          firstFrom (exactAt (pat.map (fun c => c.value)) m)
            (m.length + 1 - pat.length) 0 := by
        intro m
        rw [analyze_solid_strategy hne hw]
        show scan_simple (analyze_pattern pat) m = _
        rw [scan_simple_eq_firstFrom
          (by rw [analyze_solid_sp hne hw]; exact hvne)
          (by rw [analyze_solid_tbl hne hw]
              exact fun b => horspool_build_pos _ hvlen b)
          (by rw [analyze_solid_tbl hne hw, analyze_solid_sp hne hw]
              exact fun b => horspool_build_le _ b)
          (by rw [analyze_solid_tbl hne hw, analyze_solid_sp hne hw]
              exact fun b d h1 h2 => horspool_build_skip _ b d h1 h2)]
        rw [analyze_solid_sp hne hw]
        simp only [List.length_map]
      exact scan_multithreaded_eq_of_NF hn hpn hNF
        (fun m1 s1 m2 s2 h =>
          exactAt_local (by simp only [List.length_map]; exact h)) mem
    · by_cases hd : (pat.getD 0 default).is_wildcard = false ∧
          (pat.getD (pat.length - 1) default).is_wildcard = false
      · -- dual anchor
        have hnd : ¬((analyze_pattern pat).strategy =
            ScanStrategy.dual_anchor ∧
            (analyze_pattern pat).simple_pattern ≠ []) := by
          rintro ⟨_, hsp⟩
          exact hsp (analyze_dual_sp hne hw hd)
        have hNF : ∀ m : List Nat,
            kernel_of (analyze_pattern pat).strategy (analyze_pattern pat) m =
            firstFrom (fun s => (m.getD s 0 == (pat.getD 0 default).value) &&
              ((m.getD (s + (pat.length - 1)) 0 ==
                (pat.getD (pat.length - 1) default).value) &&
                full_match_at (analyze_pattern pat) m s))
              (m.length + 1 - pat.length) 0 := by
          intro m
          rw [analyze_dual_strategy hne hw hd]
          show scan_dual_anchor (analyze_pattern pat) m = _
          rw [scan_dual_anchor_eq_firstFrom
            (by rw [analyze_pattern_pattern]; exact hn)]
          rw [analyze_pattern_pattern, analyze_dual_fb hne hw hd,
            analyze_dual_lb hne hw hd]
        refine scan_multithreaded_eq_of_NF hn hpn hNF ?_ mem
        intro m1 s1 m2 s2 h
        have h0 := h 0 (by omega)
        rw [Nat.add_zero, Nat.add_zero] at h0
        have hL := h (pat.length - 1) (by omega)
        have hadapt : ∀ i, i < (analyze_pattern pat).pattern.length →
            m1.getD (s1 + i) 0 = m2.getD (s2 + i) 0 := by
          intro i hi
          rw [analyze_pattern_pattern] at hi
          exact h i hi
        have hful := full_match_at_local hnd hadapt
        rw [h0, hL, hful]
      · by_cases hsw : (pat.getD 0 default).is_wildcard = false
        · -- forward anchor
          have hnd : ¬((analyze_pattern pat).strategy =
              ScanStrategy.dual_anchor ∧
              (analyze_pattern pat).simple_pattern ≠ []) := by
            rintro ⟨hstr, _⟩
            rw [analyze_forward_strategy hne hw hd hsw] at hstr
            cases hstr
          have hNF : ∀ m : List Nat,
              kernel_of (analyze_pattern pat).strategy (analyze_pattern pat) m =
              firstFrom (fun s => (m.getD s 0 == (pat.getD 0 default).value) &&
                full_match_at (analyze_pattern pat) m s)
                (m.length + 1 - pat.length) 0 := by
            intro m
            rw [analyze_forward_strategy hne hw hd hsw]
            show scan_forward_anchor (analyze_pattern pat) m = _
            rw [scan_forward_anchor_eq_firstFrom
              (by rw [analyze_pattern_pattern]; exact hn)]
            rw [analyze_pattern_pattern, analyze_forward_fb hne hw hd hsw]
          refine scan_multithreaded_eq_of_NF hn hpn hNF ?_ mem
          intro m1 s1 m2 s2 h
          have h0 := h 0 (by omega)
          rw [Nat.add_zero, Nat.add_zero] at h0
          have hadapt : ∀ i, i < (analyze_pattern pat).pattern.length →
              m1.getD (s1 + i) 0 = m2.getD (s2 + i) 0 := by
            intro i hi
            rw [analyze_pattern_pattern] at hi
            exact h i hi
          have hful := full_match_at_local hnd hadapt
          rw [h0, hful]
        · by_cases hew : (pat.getD (pat.length - 1) default).is_wildcard = false
          · -- backward anchor
            have hnd : ¬((analyze_pattern pat).strategy =
                ScanStrategy.dual_anchor ∧
                (analyze_pattern pat).simple_pattern ≠ []) := by
              rintro ⟨hstr, _⟩
              rw [analyze_backward_strategy hne hw hd hsw hew] at hstr
              cases hstr
            have hNF : ∀ m : List Nat,
                kernel_of (analyze_pattern pat).strategy (analyze_pattern pat) m =
                firstFrom (fun s =>
                  (m.getD (s + (pat.length - 1)) 0 ==
                    (pat.getD (pat.length - 1) default).value) &&
                  full_match_at (analyze_pattern pat) m s)
                  (m.length + 1 - pat.length) 0 := by
              intro m
              rw [analyze_backward_strategy hne hw hd hsw hew]
              show scan_backward_anchor (analyze_pattern pat) m = _
              rw [scan_backward_anchor_eq_firstFrom
                (by rw [analyze_pattern_pattern]; exact hn)]
              rw [analyze_pattern_pattern, analyze_backward_lb hne hw hd hsw hew]
            refine scan_multithreaded_eq_of_NF hn hpn hNF ?_ mem
            intro m1 s1 m2 s2 h
            have hL := h (pat.length - 1) (by omega)
            have hadapt : ∀ i, i < (analyze_pattern pat).pattern.length →
                m1.getD (s1 + i) 0 = m2.getD (s2 + i) 0 := by
              intro i hi
              rw [analyze_pattern_pattern] at hi
              exact h i hi
            have hful := full_match_at_local hnd hadapt
            rw [hL, hful]
          · -- dynamic anchor
            have hnd : ¬((analyze_pattern pat).strategy =
                ScanStrategy.dual_anchor ∧
                (analyze_pattern pat).simple_pattern ≠ []) := by
              rintro ⟨hstr, _⟩
              rw [analyze_dynamic_strategy hne hw hd hsw hew] at hstr
              cases hstr
            have hNF : ∀ m : List Nat,
                kernel_of (analyze_pattern pat).strategy (analyze_pattern pat) m =
                firstFrom (fun s =>
                  (m.getD (s + first_solid_offset pat) 0 ==
                    (pat.getD (first_solid_offset pat) default).value) &&
                  full_match_at (analyze_pattern pat) m s)
                  (m.length + 1 - pat.length) 0 := by
              intro m
              rw [analyze_dynamic_strategy hne hw hd hsw hew]
              show scan_dynamic_anchor (analyze_pattern pat) m = _
              rw [scan_dynamic_anchor_eq_firstFrom
                (by rw [analyze_pattern_pattern]; exact hn)
                (by rw [analyze_pattern_pattern]
                    exact first_solid_offset_lt hne)]
              rw [analyze_pattern_pattern]
            refine scan_multithreaded_eq_of_NF hn hpn hNF ?_ mem
            intro m1 s1 m2 s2 h
            have hO := h (first_solid_offset pat) (first_solid_offset_lt hne)
            have hadapt : ∀ i, i < (analyze_pattern pat).pattern.length →
                m1.getD (s1 + i) 0 = m2.getD (s2 + i) 0 := by
              intro i hi
              rw [analyze_pattern_pattern] at hi
              exact h i hi
            have hful := full_match_at_local hnd hadapt
            rw [hO, hful]

/-- C2 witness: a concrete pattern and range. -/
theorem urscan_C2_witness :
    scan_parallel [⟨72, false⟩, ⟨0, true⟩, ⟨139, false⟩] [205, 72, 3, 139] =
      scan [⟨72, false⟩, ⟨0, true⟩, ⟨139, false⟩] [205, 72, 3, 139] :=
  urscan_C2 [⟨72, false⟩, ⟨0, true⟩, ⟨139, false⟩] [205, 72, 3, 139]

/-- C3: the strategy analyzer realises exactly the classification
table of the spec (`spec_strategy`). -/
theorem urscan_C3 (pat : List PatternByte) :
    (analyze_pattern pat).strategy = spec_strategy pat := by
  by_cases hne : pat = []
  · subst hne
    decide
  · have hlen0 : ¬pat.length = 0 := by
      rw [List.length_eq_zero]
      exact hne
    by_cases hw : pat.any (fun c => c.is_wildcard) = false
    · rw [analyze_solid_strategy hne hw, spec_strategy, if_neg hlen0,
        if_pos (any_wild_false_iff.mp hw)]
    · have hw2 : ¬∀ i, i < pat.length →
          (pat.getD i default).is_wildcard = false :=
        fun hcc => hw (any_wild_false_iff.mpr hcc)
      by_cases hd : (pat.getD 0 default).is_wildcard = false ∧
          (pat.getD (pat.length - 1) default).is_wildcard = false
      · rw [analyze_dual_strategy hne hw hd, spec_strategy, if_neg hlen0,
          if_neg hw2, if_pos hd]
      · by_cases hsw : (pat.getD 0 default).is_wildcard = false
        · rw [analyze_forward_strategy hne hw hd hsw, spec_strategy,
            if_neg hlen0, if_neg hw2, if_neg hd, if_pos hsw]
        · have hswt : (pat.getD 0 default).is_wildcard = true := by
            rcases Bool.eq_false_or_eq_true
                ((pat.getD 0 default).is_wildcard) with h | h
            · exact h
            · exact absurd h hsw
          by_cases hew : (pat.getD (pat.length - 1) default).is_wildcard = false
          · rw [analyze_backward_strategy hne hw hd hsw hew, spec_strategy,
              if_neg hlen0, if_neg hw2, if_neg hd, if_neg hsw,
              if_pos ⟨hswt, hew⟩]
          · have hbk : ¬((pat.getD 0 default).is_wildcard = true ∧
                (pat.getD (pat.length - 1) default).is_wildcard = false) := by
              rintro ⟨_, hcc⟩
              exact hew hcc
            rw [analyze_dynamic_strategy hne hw hd hsw hew, spec_strategy,
              if_neg hlen0, if_neg hw2, if_neg hd, if_neg hsw, if_neg hbk]

/-- C3 witness: the analyzer on a concrete pattern `48 ??`. -/
theorem urscan_C3_witness :
    (analyze_pattern [⟨72, false⟩, ⟨0, true⟩]).strategy =
      spec_strategy [⟨72, false⟩, ⟨0, true⟩] :=
  urscan_C3 [⟨72, false⟩, ⟨0, true⟩]

/-- C4 (amended): on a wildcard-free, non-empty pattern, the five scan
kernels return identical results when each is forced as the executing
kernel with fully populated auxiliary state (`populate`): each returns
the first spec-level match.  The original claim — forcing a kernel
with the state the analyzer actually compiled — fails both for
wildcard patterns (the simple kernel sees an empty `simple_pattern_`)
and for wildcard-free patterns (the anchor kernels see the
zero-initialised `first_byte_`/`last_byte_`); see the
counterexample. -/
theorem urscan_C4 (pat : List PatternByte) (mem : List Nat) (K : ScanStrategy)
    (hne : pat ≠ [])
    (hall : ∀ i, i < pat.length → (pat.getD i default).is_wildcard = false) :
    kernel_of K (populate pat) mem = spec_scan pat mem :=
  kernel_populate_eq_spec pat mem hne hall K

/-- C4 witness: all five kernels on `12 34`, forced with populated
state, agree with the spec scan. -/
theorem urscan_C4_witness :
    ([⟨18, false⟩, ⟨52, false⟩] : List PatternByte) ≠ [] ∧
    kernel_of ScanStrategy.simple (populate [⟨18, false⟩, ⟨52, false⟩])
      [205, 18, 52] = spec_scan [⟨18, false⟩, ⟨52, false⟩] [205, 18, 52] ∧
    kernel_of ScanStrategy.forward_anchor (populate [⟨18, false⟩, ⟨52, false⟩])
      [205, 18, 52] = spec_scan [⟨18, false⟩, ⟨52, false⟩] [205, 18, 52] ∧
    kernel_of ScanStrategy.backward_anchor (populate [⟨18, false⟩, ⟨52, false⟩])
      [205, 18, 52] = spec_scan [⟨18, false⟩, ⟨52, false⟩] [205, 18, 52] ∧
    kernel_of ScanStrategy.dual_anchor (populate [⟨18, false⟩, ⟨52, false⟩])
      [205, 18, 52] = spec_scan [⟨18, false⟩, ⟨52, false⟩] [205, 18, 52] ∧
    kernel_of ScanStrategy.dynamic_anchor (populate [⟨18, false⟩, ⟨52, false⟩])
      [205, 18, 52] = spec_scan [⟨18, false⟩, ⟨52, false⟩] [205, 18, 52] :=
  ⟨by decide,
   urscan_C4 _ _ ScanStrategy.simple (by decide) (by decide),
   urscan_C4 _ _ ScanStrategy.forward_anchor (by decide) (by decide),
   urscan_C4 _ _ ScanStrategy.backward_anchor (by decide) (by decide),
   urscan_C4 _ _ ScanStrategy.dual_anchor (by decide) (by decide),
   urscan_C4 _ _ ScanStrategy.dynamic_anchor (by decide) (by decide)⟩

/-- C4 counterexample: with the state the analyzer actually compiled,
the kernels disagree.  On the wildcard pattern `48 ?? 8B` the simple
kernel returns "not found" (its `simple_pattern_` is empty) while the
dual-anchor kernel finds the match; on the wildcard-free `12 34` the
forward-anchor kernel returns "not found" (its `first_byte_` is the
zero initialiser) while the simple kernel finds the match. -/
theorem urscan_C4_cex :
    kernel_of ScanStrategy.simple
      (analyze_pattern [⟨72, false⟩, ⟨0, true⟩, ⟨139, false⟩])
      [72, 0, 139] = none ∧
    kernel_of ScanStrategy.dual_anchor
      (analyze_pattern [⟨72, false⟩, ⟨0, true⟩, ⟨139, false⟩])
      [72, 0, 139] = some 0 ∧
    kernel_of ScanStrategy.forward_anchor
      (analyze_pattern [⟨18, false⟩, ⟨52, false⟩]) [18, 52] = none ∧
    kernel_of ScanStrategy.simple
      (analyze_pattern [⟨18, false⟩, ⟨52, false⟩]) [18, 52] = some 0 := by
  decide

/-- C5 (amended): `compile` succeeds exactly on the strings of the
relaxed grammar `GramRelaxed` — concatenations of spaces, wildcard
tokens (`?`/`??`) and two-hex-digit tokens, with the whitespace
between tokens optional — and fails (`InvalidSyntax`, the only failure
mode, modelled as `none`) on every other string.  The strict grammar
of the original claim (tokens separated by at least one space,
`gramStrict`) is refuted by the counterexample. -/
theorem urscan_C5 (s : List Char) :
    (parse s).isSome = true ↔ GramRelaxed s :=
  ⟨gramRelaxed_of_parse_isSome s, parse_isSome_of_gramRelaxed s⟩

/-- C5 witness: a concrete well-formed input. -/
theorem urscan_C5_witness :
    ((parse [' ', '4', '8', ' ', '?']).isSome = true ↔
      GramRelaxed [' ', '4', '8', ' ', '?']) ∧
    (parse [' ', '4', '8', ' ', '?']).isSome = true :=
  ⟨urscan_C5 [' ', '4', '8', ' ', '?'], by decide⟩

/-- C5 counterexample: the parser accepts `"1234"` (two hex pairs with
no separating space), which the claim's grammar does not generate. -/
theorem urscan_C5_cex :
    (parse ['1', '2', '3', '4']).isSome = true ∧
    gramStrict ['1', '2', '3', '4'] = false := by
  decide

/-- C6 (code bug): the claim — and the spec, which pins the
wildcard-only pattern at "not found" — is violated by the code.  The
compiled pattern of `"?? ??"` is two wildcard cells with stored value
0; on the range `[0x00, 0x00]` the dynamic-anchor kernel anchors on
that stored 0 and returns the base offset instead of "not found". -/
theorem urscan_C6 :
    parse ['?', '?', ' ', '?', '?'] = some [⟨0, true⟩, ⟨0, true⟩] ∧
    (∀ c, c ∈ ([⟨0, true⟩, ⟨0, true⟩] : List PatternByte) →
      c.is_wildcard = true) ∧
    scan [⟨0, true⟩, ⟨0, true⟩] [0, 0] = some 0 := by
  decide

/-- C7 (amended): for patterns with at least one non-wildcard cell,
`scan` never consults the value stored in a wildcard cell — two
compiled patterns agreeing on length, wildcard flags and solid values
(`same_shape`) scan identically on every range.  Without a solid cell
the dynamic-anchor kernel anchors on the wildcard cell's stored value,
so the original unrestricted claim fails (see the counterexample). -/
theorem urscan_C7 (p q : List PatternByte) (mem : List Nat)
    (hsh : same_shape p q)
    (hsolid : ∃ i, i < p.length ∧ (p.getD i default).is_wildcard = false) :
    scan p mem = scan q mem := by
  obtain ⟨hlen, hcell⟩ := hsh
  have hsolid2 : ∃ i, i < q.length ∧
      (q.getD i default).is_wildcard = false := by
    obtain ⟨i, hi, hs⟩ := hsolid
    exact ⟨i, by omega, by rw [← (hcell i hi).1]; exact hs⟩
  rw [scan_eq_spec_scan p mem hsolid, scan_eq_spec_scan q mem hsolid2]
  rw [spec_scan, spec_scan, hlen]
  apply firstFrom_congr
  intro t h1 h2
  rw [Bool.eq_iff_iff, spec_match_at_eq_true_iff, spec_match_at_eq_true_iff]
  constructor
  · intro hh i hi2
    have hip : i < p.length := by omega
    rcases hh i hip with hc | hc
    · exact Or.inl (by rw [← (hcell i hip).1]; exact hc)
    · rcases Bool.eq_false_or_eq_true ((p.getD i default).is_wildcard)
        with hwp | hwp
      · exact Or.inl (by rw [← (hcell i hip).1]; exact hwp)
      · exact Or.inr (by rw [← (hcell i hip).2 hwp]; exact hc)
  · intro hh i hip
    rcases hh i (by omega) with hc | hc
    · exact Or.inl (by rw [(hcell i hip).1]; exact hc)
    · rcases Bool.eq_false_or_eq_true ((p.getD i default).is_wildcard)
        with hwp | hwp
      · exact Or.inl hwp
      · exact Or.inr (by rw [(hcell i hip).2 hwp]; exact hc)

/-- C7 witness: `48 ??` with two different values stored in the
wildcard cell scans identically. -/
theorem urscan_C7_witness :
    same_shape [⟨72, false⟩, ⟨0, true⟩] [⟨72, false⟩, ⟨9, true⟩] ∧
    (∃ i, i < ([⟨72, false⟩, ⟨0, true⟩] : List PatternByte).length ∧
      (([⟨72, false⟩, ⟨0, true⟩] : List PatternByte).getD i
        default).is_wildcard = false) ∧
    scan [⟨72, false⟩, ⟨0, true⟩] [72, 5] =
      scan [⟨72, false⟩, ⟨9, true⟩] [72, 5] :=
  ⟨by decide, ⟨0, by decide⟩,
   urscan_C7 [⟨72, false⟩, ⟨0, true⟩] [⟨72, false⟩, ⟨9, true⟩] [72, 5]
     (by decide) ⟨0, by decide⟩⟩

/-- C7 counterexample: two all-wildcard patterns of length 2 agreeing
on length, flags and (vacuously) all solid values, whose scans differ
on `[0x00, 0x00]` — the kernel anchors on the value stored in the
wildcard cell. -/
theorem urscan_C7_cex :
    same_shape [⟨0, true⟩, ⟨0, true⟩] [⟨1, true⟩, ⟨1, true⟩] ∧
    scan [⟨0, true⟩, ⟨0, true⟩] [0, 0] ≠
      scan [⟨1, true⟩, ⟨1, true⟩] [0, 0] := by
  decide

/-- C8: for a non-empty wildcard-free (Simple) pattern, the
precomputed skip table equals the reference definition (all slots `n`,
then `table[pattern[i]] := n - 1 - i` for `i ≤ n - 2`, later writes
winning — evaluated by `tblAux`); every entry is at least 1; and
consequently the BMH loop is insensitive to any fuel of at least
`|M| + 1` steps — the window index strictly increases each iteration,
so the scan terminates on every finite range. -/
theorem urscan_C8 (pat : List PatternByte) (hne : pat ≠ [])
    (hall : ∀ i, i < pat.length → (pat.getD i default).is_wildcard = false) :
    (∀ b, b < 256 → (analyze_pattern pat).horspool_table b =
      tblAux (pat.map (fun c => c.value))
        ((pat.map (fun c => c.value)).length - 1) b) ∧
    (∀ b, 1 ≤ (analyze_pattern pat).horspool_table b) ∧
    (∀ mem : List Nat, ∀ fuel, mem.length + 1 ≤ fuel →
      bmh_loop (analyze_pattern pat).horspool_table
        (analyze_pattern pat).simple_pattern mem fuel 0 =
      bmh_loop (analyze_pattern pat).horspool_table
        (analyze_pattern pat).simple_pattern mem (mem.length + 1) 0) := by
  have hn : 1 ≤ pat.length := List.length_pos.mpr hne
  have hw : pat.any (fun c => c.is_wildcard) = false :=
    any_wild_false_iff.mpr hall
  have hvne : pat.map (fun c => c.value) ≠ [] := by simpa using hne
  have hvlen : 1 ≤ (pat.map (fun c => c.value)).length := by simpa using hn
  refine ⟨?_, ?_, ?_⟩
  · intro b _
    rw [analyze_solid_tbl hne hw]
    exact horspool_build_eq_tblAux _ b
  · intro b
    rw [analyze_solid_tbl hne hw]
    exact horspool_build_pos _ hvlen b
  · intro mem fuel hfuel
    rw [analyze_solid_tbl hne hw, analyze_solid_sp hne hw]
    rw [bmh_loop_eq_firstFrom hvne
        (fun b => horspool_build_pos _ hvlen b)
        (fun b => horspool_build_le _ b)
        (fun b d h1 h2 => horspool_build_skip _ b d h1 h2) fuel 0 (by omega),
      bmh_loop_eq_firstFrom hvne
        (fun b => horspool_build_pos _ hvlen b)
        (fun b => horspool_build_le _ b)
        (fun b d h1 h2 => horspool_build_skip _ b d h1 h2)
        (mem.length + 1) 0 (by omega)]

/-- C8 witness: the pattern `12 34` on a concrete range. -/
theorem urscan_C8_witness :
    (analyze_pattern [⟨18, false⟩, ⟨52, false⟩]).horspool_table 18 =
      tblAux [18, 52] 1 18 ∧
    1 ≤ (analyze_pattern [⟨18, false⟩, ⟨52, false⟩]).horspool_table 205 ∧
    bmh_loop (analyze_pattern [⟨18, false⟩, ⟨52, false⟩]).horspool_table
      (analyze_pattern [⟨18, false⟩, ⟨52, false⟩]).simple_pattern
      [205, 18, 52] 9 0 =
    bmh_loop (analyze_pattern [⟨18, false⟩, ⟨52, false⟩]).horspool_table
      (analyze_pattern [⟨18, false⟩, ⟨52, false⟩]).simple_pattern
      [205, 18, 52] 4 0 :=
  ⟨(urscan_C8 [⟨18, false⟩, ⟨52, false⟩] (by decide) (by decide)).1 18
     (by decide),
   (urscan_C8 [⟨18, false⟩, ⟨52, false⟩] (by decide) (by decide)).2.1 205,
   (urscan_C8 [⟨18, false⟩, ⟨52, false⟩] (by decide) (by decide)).2.2
     [205, 18, 52] 9 (by decide)⟩

/-- C9: each wildcard token produces exactly one wildcard cell — a
`??` consumes both characters and emits one cell, an isolated `?`
(before a space or at the end) emits one cell. -/
theorem urscan_C9 (r : List Char) :
    parse ('?' :: '?' :: r) =
      (parse r).map (fun cells => ⟨0, true⟩ :: cells) ∧
    parse ('?' :: ' ' :: r) =
      (parse (' ' :: r)).map (fun cells => ⟨0, true⟩ :: cells) ∧
    parse ['?'] = some [⟨0, true⟩] :=
  ⟨parse_qq r, parse_q_cons (by decide), parse_q1⟩

/-- C9 witness: `?? 48` and `? 48` each produce one wildcard cell. -/
theorem urscan_C9_witness :
    parse ['?', '?', '4', '8'] =
      (parse ['4', '8']).map (fun cells => ⟨0, true⟩ :: cells) ∧
    parse ['?', ' ', '4', '8'] =
      (parse [' ', '4', '8']).map (fun cells => ⟨0, true⟩ :: cells) ∧
    parse ['?'] = some [⟨0, true⟩] :=
  urscan_C9 ['4', '8']

/-- C10: the multi-range entry point never fails on degenerate input —
it is a total function returning `none` on an empty list of ranges,
and ranges whose start is not strictly below their end are skipped
without affecting the result of the remaining ranges (filtering them
out leaves the result unchanged). -/
theorem urscan_C10 :
    (∀ pat : List PatternByte, scan_ranges pat [] = none) ∧
    (∀ pat : List PatternByte, ∀ rs : List MemRange,
      scan_ranges pat rs =
        scan_ranges pat (rs.filter (fun r => decide (r.start < r.stop)))) := by
  constructor
  · intro pat
    rw [scan_ranges, if_pos (Or.inr rfl)]
  · intro pat rs
    rw [scan_ranges, scan_ranges]
    by_cases hp : pat = []
    · rw [if_pos (Or.inl hp), if_pos (Or.inl hp)]
    · by_cases hrs : rs = []
      · subst hrs
        simp
      · rw [if_neg (not_or.mpr ⟨hp, hrs⟩)]
        by_cases hfil : rs.filter (fun r => decide (r.start < r.stop)) = []
        · rw [if_pos (Or.inr hfil)]
          rw [scan_ranges_go_filter, hfil]
          rfl
        · rw [if_neg (not_or.mpr ⟨hp, hfil⟩)]
          exact scan_ranges_go_filter _ rs

/-- C10 witness: a concrete list with one degenerate range. -/
theorem urscan_C10_witness :
    scan_ranges [⟨18, false⟩] [] = none ∧
    scan_ranges [⟨18, false⟩]
      [⟨100, 50, [1, 2, 3]⟩, ⟨10, 13, [0, 18, 7]⟩] =
    scan_ranges [⟨18, false⟩]
      (([⟨100, 50, [1, 2, 3]⟩, ⟨10, 13, [0, 18, 7]⟩] : List MemRange).filter
        (fun r => decide (r.start < r.stop))) :=
  ⟨urscan_C10.1 [⟨18, false⟩],
   urscan_C10.2 [⟨18, false⟩] [⟨100, 50, [1, 2, 3]⟩, ⟨10, 13, [0, 18, 7]⟩]⟩

end Urscan
